import Mathlib

/-!
Verification of the LoRa/BLE bridge wire protocol and bridging logic
(repository psytraxx/android-lora-ble-bridge, source under src/esp32s3/src).

Byte buffers are modelled as `List Nat` (each entry a byte value < 256),
Rust `char` values as `Nat` code points, `u8` arithmetic with explicit
`% 256`, and `i32` values as `Int` with explicit two's-complement
conversion at the byte boundary.  Fallible Rust functions returning
`Result<T, &'static str>` become `Except String T` carrying the same
error strings as the source.
-/

namespace LoraBridge

instance {ε α : Type} [DecidableEq ε] [DecidableEq α] : DecidableEq (Except ε α) := by
  intro a b
  cases a with
  | error e1 =>
    cases b with
    | error e2 =>
      exact if h : e1 = e2 then .isTrue (by rw [h])
        else .isFalse (fun hc => h (Except.error.inj hc))
    | ok x2 => exact .isFalse (fun hc => Except.noConfusion hc)
  | ok x1 =>
    cases b with
    | error e2 => exact .isFalse (fun hc => Except.noConfusion hc)
    | ok x2 =>
      exact if h : x1 = x2 then .isTrue (by rw [h])
        else .isFalse (fun hc => h (Except.ok.inj hc))

/-- Maximum text length in characters, `MAX_TEXT_LENGTH` in protocol.rs. -/
def MAX_TEXT_LENGTH : Nat := 50

/-- The 64-character set for 6-bit encoding, `CHARSET` in protocol.rs:
space, A-Z, 0-9, then 27 punctuation marks, given by ASCII code. -/
def CHARSET : List Nat :=
  [32,
   65, 66, 67, 68, 69, 70, 71, 72, 73, 74, 75, 76, 77,
   78, 79, 80, 81, 82, 83, 84, 85, 86, 87, 88, 89, 90,
   48, 49, 50, 51, 52, 53, 54, 55, 56, 57,
   46, 44, 33, 63, 45, 58, 59, 39, 34, 64, 35, 36, 37, 38,
   42, 40, 41, 91, 93, 123, 125, 61, 43, 47, 60, 62, 95]

/-- Rust `char::to_ascii_uppercase`: maps a-z to A-Z, all else unchanged. -/
def toAsciiUppercase (c : Nat) : Nat :=
  if 97 ≤ c ∧ c ≤ 122 then c - 32 else c

/-- Rust `Iterator::position`: index of the first element satisfying the
predicate (here: equality with a target value). -/
def position (target : Nat) : List Nat → Option Nat
  | [] => none
  | c :: rest => if c = target then some 0 else (position target rest).map (· + 1)

/-- `char_to_6bit` from protocol.rs: uppercase the character, then look up
its index in `CHARSET`. -/
def char_to_6bit (ch : Nat) : Except String Nat :=
  match position (toAsciiUppercase ch) CHARSET with
  | some p => .ok p
  | none => .error "Character not in supported charset"

/-- `sixbit_to_char` from protocol.rs. -/
def sixbit_to_char (val : Nat) : Except String Nat :=
  if val < CHARSET.length then .ok (CHARSET.getD val 0)
  else .error "Invalid 5-bit value"

/-- Total version of `char_to_6bit` used on the specification side
(meaningful only when the lookup succeeds). -/
def charIdx (ch : Nat) : Nat :=
  match char_to_6bit ch with
  | .ok v => v
  | .error _ => 0

/-- One loop iteration of `pack_text`: OR the 6-bit `value` into the
byte(s) of `result` starting at bit `bitOffset`, exactly as the
bit manipulation in protocol.rs lines 51-67 (u8 shifts reduced `% 256`). -/
def packStep (result : List Nat) (bitOffset value : Nat) : List Nat :=
  let byteIdx := bitOffset / 8
  let bitInByte := bitOffset % 8
  if bitInByte ≤ 2 then
    result.set byteIdx (result.getD byteIdx 0 ||| ((value <<< (2 - bitInByte)) % 256))
  else
    let bitsInFirst := 8 - bitInByte
    let bitsInSecond := 6 - bitsInFirst
    let r1 := result.set byteIdx (result.getD byteIdx 0 ||| ((value >>> bitsInSecond) % 256))
    if byteIdx + 1 < r1.length then
      r1.set (byteIdx + 1) (r1.getD (byteIdx + 1) 0 ||| ((value <<< (8 - bitsInSecond)) % 256))
    else r1

/-- The loop of `pack_text`: convert each character and write its 6 bits. -/
def packGo : List Nat → Nat → List Nat → Except String (List Nat)
  | [], _, result => .ok result
  | ch :: rest, bitOffset, result =>
    match char_to_6bit ch with
    | .error e => .error e
    | .ok value => packGo rest (bitOffset + 6) (packStep result bitOffset value)

/-- `pack_text` from protocol.rs: allocate `(char_count * 6).div_ceil(8)`
zero bytes, then pack each character's 6-bit value. -/
def pack_text (text : List Nat) : Except String (List Nat) :=
  packGo text 0 (List.replicate ((text.length * 6 + 7) / 8) 0)

/-- The 6-bit extraction of one `unpack_text` iteration, including the two
bounds checks of protocol.rs lines 85-102. -/
def extractVal (packed : List Nat) (bitOffset : Nat) : Except String Nat :=
  let byteIdx := bitOffset / 8
  let bitInByte := bitOffset % 8
  if packed.length ≤ byteIdx then .error "Insufficient packed data"
  else if bitInByte ≤ 2 then
    .ok ((packed.getD byteIdx 0 >>> (2 - bitInByte)) &&& 63)
  else
    let bitsInFirst := 8 - bitInByte
    let bitsInSecond := 6 - bitsInFirst
    if byteIdx + 1 < packed.length then
      .ok (((packed.getD byteIdx 0 &&& ((1 <<< bitsInFirst) - 1)) <<< bitsInSecond) |||
           (packed.getD (byteIdx + 1) 0 >>> (8 - bitsInSecond)))
    else .error "Insufficient packed data"

/-- The loop of `unpack_text`: read `count` 6-bit values, map each through
the charset, and push onto a `heapless::String<64>` (push fails once the
accumulated string holds 64 characters). -/
def unpackLoop (packed : List Nat) : Nat → Nat → List Nat → Except String (List Nat)
  | 0, _, acc => .ok acc
  | count + 1, bitOffset, acc =>
    match extractVal packed bitOffset with
    | .error e => .error e
    | .ok value =>
      match sixbit_to_char value with
      | .error e => .error e
      | .ok ch =>
        if acc.length < 64 then unpackLoop packed count (bitOffset + 6) (acc ++ [ch])
        else .error "String capacity exceeded"

/-- `unpack_text` from protocol.rs. -/
def unpack_text (packed : List Nat) (char_count : Nat) : Except String (List Nat) :=
  unpackLoop packed char_count 0 []

/-- UTF-8 byte length of one Unicode scalar value. -/
def utf8Len (c : Nat) : Nat :=
  if c < 128 then 1 else if c < 2048 then 2 else if c < 65536 then 3 else 4

/-- Rust `str::len` (UTF-8 byte count) of a text given as code points;
`heapless::String::len` in `Message::serialize` is this byte count, while
`pack_text` iterates over characters. -/
def byteLen (text : List Nat) : Nat :=
  (text.map utf8Len).sum

/-- `TextMessage` from protocol.rs (`text` is a `heapless::String<64>`). -/
structure TextMessage where
  seq : Nat
  text : List Nat
deriving DecidableEq

/-- `GpsMessage` from protocol.rs; `lat`/`lon` are `i32` fixed-point. -/
structure GpsMessage where
  seq : Nat
  lat : Int
  lon : Int
deriving DecidableEq

/-- `AckMessage` from protocol.rs. -/
structure AckMessage where
  seq : Nat
deriving DecidableEq

/-- `Message` from protocol.rs. -/
inductive Message where
  | Text : TextMessage → Message
  | Gps : GpsMessage → Message
  | Ack : AckMessage → Message
deriving DecidableEq

/-- Rust `i32::to_le_bytes`: two's-complement little-endian bytes. -/
def i32ToLeBytes (x : Int) : List Nat :=
  let u := (x % 4294967296).toNat
  [u % 256, u / 256 % 256, u / 65536 % 256, u / 16777216 % 256]

/-- Rust `i32::from_le_bytes` on four byte values. -/
def i32FromLeBytes (b0 b1 b2 b3 : Nat) : Int :=
  let u := b0 + 256 * b1 + 65536 * b2 + 16777216 * b3
  if u < 2147483648 then (u : Int) else (u : Int) - 4294967296

/-- `Message::serialize` from protocol.rs.  `bufLen` is the length of the
destination buffer; the returned list is the prefix `buf[..len]` actually
written (the unwritten tail of the Rust buffer is irrelevant to callers,
which always forward exactly `buf[..len]`). -/
def Message.serialize (m : Message) (bufLen : Nat) : Except String (List Nat) :=
  match m with
  | .Text t =>
    if MAX_TEXT_LENGTH < byteLen t.text then .error "Text too long"
    else
      match pack_text t.text with
      | .error e => .error e
      | .ok packed =>
        if bufLen < 4 + packed.length then .error "Buffer too small"
        else .ok ([1, t.seq, byteLen t.text % 256, packed.length % 256] ++ packed)
  | .Gps g =>
    if bufLen < 10 then .error "Buffer too small"
    else .ok ([2, g.seq] ++ i32ToLeBytes g.lat ++ i32ToLeBytes g.lon)
  | .Ack a =>
    if bufLen < 2 then .error "Buffer too small"
    else .ok [3, a.seq]

/-- `Message::deserialize` from protocol.rs. -/
def Message.deserialize (buf : List Nat) : Except String Message :=
  if buf.isEmpty then .error "Empty buffer"
  else if buf.getD 0 0 = 1 then
    if buf.length < 4 then .error "Buffer too small for text message header"
    else
      let seq := buf.getD 1 0
      let char_count := buf.getD 2 0
      let packed_len := buf.getD 3 0
      if buf.length < 4 + packed_len then .error "Buffer too small for packed text"
      else
        match unpack_text ((buf.drop 4).take packed_len) char_count with
        | .error e => .error e
        | .ok text => .ok (.Text ⟨seq, text⟩)
  else if buf.getD 0 0 = 2 then
    if buf.length < 10 then .error "Buffer too small for GPS message"
    else
      .ok (.Gps ⟨buf.getD 1 0,
        i32FromLeBytes (buf.getD 2 0) (buf.getD 3 0) (buf.getD 4 0) (buf.getD 5 0),
        i32FromLeBytes (buf.getD 6 0) (buf.getD 7 0) (buf.getD 8 0) (buf.getD 9 0)⟩)
  else if buf.getD 0 0 = 3 then
    if buf.length < 2 then .error "Buffer too small for ack"
    else .ok (.Ack ⟨buf.getD 1 0⟩)
  else .error "Unknown message type"

/-- Validity of a `Message` as a value of the Rust data model: `seq` fits
in `u8`, `lat`/`lon` fit in `i32`, and a text holds at most 50 characters
drawn literally from the (uppercase-only) 64-symbol alphabet. -/
def Message.valid : Message → Prop
  | .Text t => t.seq < 256 ∧ t.text.length ≤ 50 ∧ ∀ c ∈ t.text, c ∈ CHARSET
  | .Gps g => g.seq < 256 ∧ -2147483648 ≤ g.lat ∧ g.lat < 2147483648 ∧
      -2147483648 ≤ g.lon ∧ g.lon < 2147483648
  | .Ack a => a.seq < 256

instance : DecidablePred Message.valid := by
  intro m
  cases m <;> simp only [Message.valid] <;> infer_instance

/-- Big-endian base-256 digits of `n`, `len` bytes wide (most significant
first).  Specification-side normal form for packed byte sequences. -/
def bytesBE (n : Nat) : Nat → List Nat
  | 0 => []
  | len + 1 => (n / 2 ^ (8 * len) % 256) :: bytesBE n len

/-- The number whose base-64 digits (most significant first) are `vals`:
the MSB-first concatenation of the 6-bit values of `vals`. -/
def msbConcat (vals : List Nat) : Nat :=
  vals.foldl (fun a v => a * 64 + v) 0

/-- Modelled from the spec (§4.1/§6): the packed byte form of a list of
6-bit alphabet indices — the indices concatenated MSB-first across byte
boundaries, the trailing bits of the final byte zero-padded. -/
def specPacked (vals : List Nat) : List Nat :=
  bytesBE (msbConcat vals * 2 ^ (8 * ((vals.length * 6 + 7) / 8) - vals.length * 6))
    ((vals.length * 6 + 7) / 8)

/-- Modelled from the spec (§5, "Bounded channel", and §8 "Channel drop
policy"): a bounded FIFO channel of capacity `cap` with the non-blocking
`try_send` of `embassy_sync::channel::Channel` (an external collaborator):
append when not full, report failure and leave the queue unchanged when
full.  The boolean is `true` exactly when the message was accepted. -/
def trySendState (cap : Nat) (q : List α) (m : α) : Bool × List α :=
  if q.length < cap then (true, q ++ [m]) else (false, q)

/-- The inbound-triggered branch of `lora_task` (lora.rs lines 266-391),
as a function from the received frame and the current contents of the
`lora_to_ble` channel (capacity 10) to the list of frames transmitted in
response and the new channel contents.  The radio is abstracted as
accepting every transmit; deserialize failures discard the frame. -/
def handleRxFrame (data : List Nat) (chan : List Message) : List (List Nat) × List Message :=
  match Message.deserialize data with
  | .error _ => ([], chan)
  | .ok msg =>
    match msg with
    | .Text t =>
      let tx := match (Message.Ack ⟨t.seq⟩).serialize 64 with
        | .ok frame => [frame]
        | .error _ => []
      (tx, (trySendState 10 chan (Message.Text t)).2)
    | .Gps g =>
      let tx := match (Message.Ack ⟨g.seq⟩).serialize 64 with
        | .ok frame => [frame]
        | .error _ => []
      (tx, (trySendState 10 chan (Message.Gps g)).2)
    | .Ack a => ([], (trySendState 10 chan (Message.Ack a)).2)

/-- Digit-by-digit accumulation of Rust's integer `from_str` on a list of
character codes: `none` unless the list is nonempty and all digits. -/
def parseNatDigits (cs : List Nat) : Option Nat :=
  match cs with
  | [] => none
  | _ => cs.foldl
      (fun acc c => acc.bind (fun n =>
        if 48 ≤ c ∧ c ≤ 57 then some (n * 10 + (c - 48)) else none))
      (some 0)

/-- Rust `str::parse::<i32>` on a string given as character codes:
optional sign, decimal digits, failure outside the `i32` range. -/
def parseI32 (cs : List Nat) : Option Int :=
  match cs with
  | [] => none
  | c :: rest =>
    if c = 45 then
      match parseNatDigits rest with
      | some n => if n ≤ 2147483648 then some (-(n : Int)) else none
      | none => none
    else if c = 43 then
      match parseNatDigits rest with
      | some n => if n ≤ 2147483647 then some ((n : Int)) else none
      | none => none
    else
      match parseNatDigits (c :: rest) with
      | some n => if n ≤ 2147483647 then some ((n : Int)) else none
      | none => none

/-- Rust `str::parse::<u32>`: optional plus sign, decimal digits, failure
outside the `u32` range (a minus sign always fails). -/
def parseU32 (cs : List Nat) : Option Nat :=
  match cs with
  | [] => none
  | c :: rest =>
    if c = 43 then
      match parseNatDigits rest with
      | some n => if n ≤ 4294967295 then some n else none
      | none => none
    else
      match parseNatDigits (c :: rest) with
      | some n => if n ≤ 4294967295 then some n else none
      | none => none

/-- TX power resolution of `lora_task` (lora.rs lines 108-132): the
`LORA_TX_POWER_DBM` environment value (absent, or a string of character
codes) is parsed as `i32` and accepted when in `-4..=20`, with 14 dBm as
the fallback in every other case.  Total: invalid input never aborts. -/
def resolvePower (cfg : Option (List Nat)) : Int :=
  match cfg with
  | none => 14
  | some s =>
    match parseI32 s with
    | some v => if -4 ≤ v ∧ v ≤ 20 then v else 14
    | none => 14

/-- Carrier frequency resolution of `lora_task` (lora.rs lines 137-170):
the `LORA_TX_FREQUENCY` value is parsed as `u32` and accepted when inside
one of the ISM sub-bands 433.05-434.79 MHz, 863-870 MHz or 902-928 MHz,
with 433.92 MHz as the fallback in every other case. -/
def resolveFrequency (cfg : Option (List Nat)) : Nat :=
  match cfg with
  | none => 433920000
  | some s =>
    match parseU32 s with
    | some v =>
      if (433050000 ≤ v ∧ v ≤ 434790000) ∨ (863000000 ≤ v ∧ v ≤ 870000000) ∨
          (902000000 ≤ v ∧ v ≤ 928000000) then v
      else 433920000
    | none => 433920000

end LoraBridge

namespace LoraBridge

/-! ### Arithmetic helpers for byte-level reasoning -/

theorem or_two_pow_mul (t a b : Nat) (hb : b < 2 ^ t) :
    (2 ^ t * a) ||| b = 2 ^ t * a + b := by
  apply Nat.eq_of_testBit_eq
  intro i
  rw [Nat.testBit_or]
  rcases Nat.lt_or_ge i t with h | h
  · have hsplit : (2 : Nat) ^ t = 2 ^ i * 2 ^ (t - i) := by
      rw [← pow_add]
      congr 1
      omega
    have heven : 2 ^ (t - i) * a % 2 = 0 := by
      have h2 : (2 : Nat) ∣ 2 ^ (t - i) * a :=
        Dvd.dvd.mul_right (dvd_pow_self 2 (by omega)) a
      omega
    have h1 : (2 ^ t * a).testBit i = false := by
      rw [Nat.testBit_to_div_mod, hsplit, mul_assoc,
        Nat.mul_div_cancel_left _ (Nat.two_pow_pos i)]
      simp [heven]
    have key : (2 ^ t * a + b) / 2 ^ i % 2 = b / 2 ^ i % 2 := by
      rw [hsplit, mul_assoc, Nat.mul_add_div (Nat.two_pow_pos i)]
      omega
    rw [h1, Bool.false_or, Nat.testBit_to_div_mod, Nat.testBit_to_div_mod, key]
  · have hb2 : b.testBit i = false :=
      Nat.testBit_lt_two_pow (lt_of_lt_of_le hb (Nat.pow_le_pow_right (by norm_num) h))
    have hsplit : (2 : Nat) ^ i = 2 ^ t * 2 ^ (i - t) := by
      rw [← pow_add]
      congr 1
      omega
    have hdivb : b / 2 ^ t = 0 := Nat.div_eq_of_lt hb
    have key : (2 ^ t * a + b) / 2 ^ i = a / 2 ^ (i - t) := by
      rw [hsplit, ← Nat.div_div_eq_div_mul, Nat.mul_add_div (Nat.two_pow_pos t),
        hdivb, Nat.add_zero]
    have key2 : 2 ^ t * a / 2 ^ i = a / 2 ^ (i - t) := by
      rw [hsplit, ← Nat.div_div_eq_div_mul, Nat.mul_div_cancel_left _ (Nat.two_pow_pos t)]
    rw [hb2, Bool.or_false, Nat.testBit_to_div_mod, Nat.testBit_to_div_mod, key, key2]

theorem mod_pow_div (x m j : Nat) (h : j ≤ m) :
    x % 2 ^ m / 2 ^ j = x / 2 ^ j % 2 ^ (m - j) := by
  have hsplit : (2 : Nat) ^ m = 2 ^ j * 2 ^ (m - j) := by
    rw [← pow_add]
    congr 1
    omega
  have hx : x = 2 ^ m * (x / 2 ^ m) + x % 2 ^ m := (Nat.div_add_mod x (2 ^ m)).symm
  have hrlt : x % 2 ^ m < 2 ^ m := Nat.mod_lt x (Nat.two_pow_pos m)
  have hlt : x % 2 ^ m / 2 ^ j < 2 ^ (m - j) := by
    rw [Nat.div_lt_iff_lt_mul (Nat.two_pow_pos j)]
    calc x % 2 ^ m < 2 ^ m := hrlt
      _ = 2 ^ (m - j) * 2 ^ j := by rw [← pow_add]; congr 1; omega
  calc x % 2 ^ m / 2 ^ j
      = (2 ^ (m - j) * (x / 2 ^ m) + x % 2 ^ m / 2 ^ j) % 2 ^ (m - j) := by
        rw [Nat.mul_add_mod, Nat.mod_eq_of_lt hlt]
    _ = (2 ^ j * (2 ^ (m - j) * (x / 2 ^ m)) + x % 2 ^ m) / 2 ^ j % 2 ^ (m - j) := by
        rw [Nat.mul_add_div (Nat.two_pow_pos j)]
    _ = x / 2 ^ j % 2 ^ (m - j) := by
        rw [← mul_assoc, ← hsplit, ← hx]

theorem mul_pow_div_le (M s e : Nat) (h : s ≤ e) : M * 2 ^ s / 2 ^ e = M / 2 ^ (e - s) := by
  have hsplit : (2 : Nat) ^ e = 2 ^ s * 2 ^ (e - s) := by
    rw [← pow_add]
    congr 1
    omega
  rw [hsplit, ← Nat.div_div_eq_div_mul, Nat.mul_div_cancel _ (Nat.two_pow_pos s)]

theorem mul_pow_div_ge (M s e : Nat) (h : e ≤ s) : M * 2 ^ s / 2 ^ e = M * 2 ^ (s - e) := by
  have hsplit : (2 : Nat) ^ s = 2 ^ (s - e) * 2 ^ e := by
    rw [← pow_add]
    congr 1
    omega
  rw [hsplit, ← mul_assoc, Nat.mul_div_cancel _ (Nat.two_pow_pos e)]

theorem byte_mul_pow_zero (M t e : Nat) (h : e + 8 ≤ t) : M * 2 ^ t / 2 ^ e % 256 = 0 := by
  rw [mul_pow_div_ge M t e (by omega)]
  have hsplit : (2 : Nat) ^ (t - e) = 2 ^ (t - e - 8) * 256 := by
    have h256 : (256 : Nat) = 2 ^ 8 := by norm_num
    rw [h256, ← pow_add]
    congr 1
    omega
  rw [hsplit, ← mul_assoc, Nat.mul_mod_left]

theorem div64_shift (N v t : Nat) (hv : v < 64) (ht : 6 ≤ t) :
    (64 * N + v) / 2 ^ t = N / 2 ^ (t - 6) := by
  have hsplit : (2 : Nat) ^ t = 64 * 2 ^ (t - 6) := by
    have h64 : (64 : Nat) = 2 ^ 6 := by norm_num
    rw [h64, ← pow_add]
    congr 1
    omega
  rw [hsplit, ← Nat.div_div_eq_div_mul, Nat.mul_add_div (by norm_num : (0 : Nat) < 64),
    Nat.div_eq_of_lt hv, Nat.add_zero]

/-! ### Big-endian byte sequences -/

theorem bytesBE_length (n len : Nat) : (bytesBE n len).length = len := by
  induction len with
  | zero => rfl
  | succ k ih => simp [bytesBE, ih]

theorem bytesBE_getD (n : Nat) :
    ∀ len i, i < len → (bytesBE n len).getD i 0 = n / 2 ^ (8 * (len - 1 - i)) % 256 := by
  intro len
  induction len with
  | zero => omega
  | succ k ih =>
    intro i h
    cases i with
    | zero => simp [bytesBE]
    | succ j =>
      have hj := ih j (by omega)
      simp only [bytesBE, List.getD_cons_succ]
      rw [hj]
      congr 3
      omega

theorem bytesBE_zero (len : Nat) : bytesBE 0 len = List.replicate len 0 := by
  induction len with
  | zero => rfl
  | succ k ih => simp [bytesBE, ih, List.replicate_succ]

theorem list_eq_of_getD (l₁ l₂ : List Nat) (hlen : l₁.length = l₂.length)
    (h : ∀ i, i < l₁.length → l₁.getD i 0 = l₂.getD i 0) : l₁ = l₂ := by
  apply List.ext_getElem hlen
  intro i h₁ h₂
  have hi := h i h₁
  rwa [List.getD_eq_getElem _ _ h₁, List.getD_eq_getElem _ _ h₂] at hi

theorem getD_set (l : List Nat) (i j v : Nat) (hj : j < l.length) :
    (l.set i v).getD j 0 = if i = j then v else l.getD j 0 := by
  rw [List.getD_eq_getElem _ _ (by simpa using hj), List.getD_eq_getElem _ _ hj,
    List.getElem_set]

theorem set_byte_eq (A B : Nat) (L bi x : Nat) (hbi : bi < L)
    (hbyte : x = B / 2 ^ (8 * (L - 1 - bi)) % 256)
    (hrest : ∀ i, i < L → i ≠ bi →
      A / 2 ^ (8 * (L - 1 - i)) % 256 = B / 2 ^ (8 * (L - 1 - i)) % 256) :
    (bytesBE A L).set bi x = bytesBE B L := by
  apply list_eq_of_getD
  · simp [bytesBE_length]
  · intro i hi
    have hiL : i < L := by simpa [bytesBE_length] using hi
    rw [getD_set _ _ _ _ (by rw [bytesBE_length]; exact hiL), bytesBE_getD _ _ _ hiL]
    rw [bytesBE_getD B _ _ hiL]
    by_cases hcase : bi = i
    · rw [if_pos hcase, hbyte, hcase]
    · rw [if_neg hcase]
      exact hrest i hiL (fun hc => hcase hc.symm)

theorem set_two_bytes_eq (A B : Nat) (L bi x y : Nat) (hbi : bi + 1 < L)
    (hx : x = B / 2 ^ (8 * (L - 1 - bi)) % 256)
    (hy : y = B / 2 ^ (8 * (L - 1 - (bi + 1))) % 256)
    (hrest : ∀ i, i < L → i ≠ bi → i ≠ bi + 1 →
      A / 2 ^ (8 * (L - 1 - i)) % 256 = B / 2 ^ (8 * (L - 1 - i)) % 256) :
    ((bytesBE A L).set bi x).set (bi + 1) y = bytesBE B L := by
  apply list_eq_of_getD
  · simp [bytesBE_length]
  · intro i hi
    have hiL : i < L := by simpa [bytesBE_length] using hi
    rw [getD_set _ _ _ _ (by simp [bytesBE_length]; exact hiL),
      getD_set _ _ _ _ (by rw [bytesBE_length]; exact hiL),
      bytesBE_getD B _ _ hiL]
    by_cases h1 : bi + 1 = i
    · rw [if_pos h1, hy, h1]
    · rw [if_neg h1]
      by_cases h2 : bi = i
      · rw [if_pos h2, hx, h2]
      · rw [if_neg h2, bytesBE_getD A _ _ hiL]
        exact hrest i hiL (fun hc => h2 hc.symm) (fun hc => h1 hc.symm)

/-! ### Charset and character conversion -/

theorem position_lt (t : Nat) : ∀ l : List Nat, ∀ v, position t l = some v → v < l.length := by
  intro l
  induction l with
  | nil => intro v h; simp [position] at h
  | cons c rest ih =>
    intro v h
    simp only [position] at h
    by_cases hc : c = t
    · rw [if_pos hc] at h
      simp at h
      simp [List.length_cons]
      omega
    · rw [if_neg hc] at h
      match hrec : position t rest with
      | none => rw [hrec] at h; simp at h
      | some w =>
        rw [hrec] at h
        simp at h
        have := ih w hrec
        simp [List.length_cons]
        omega

theorem position_getD (t : Nat) :
    ∀ l : List Nat, ∀ v, position t l = some v → l.getD v 0 = t := by
  intro l
  induction l with
  | nil => intro v h; simp [position] at h
  | cons c rest ih =>
    intro v h
    simp only [position] at h
    by_cases hc : c = t
    · rw [if_pos hc] at h
      simp at h
      subst h
      simpa using hc
    · rw [if_neg hc] at h
      match hrec : position t rest with
      | none => rw [hrec] at h; simp at h
      | some w =>
        rw [hrec] at h
        simp at h
        subst h
        simpa using ih w hrec

theorem position_of_mem (t : Nat) :
    ∀ l : List Nat, t ∈ l → ∃ v, position t l = some v := by
  intro l
  induction l with
  | nil => intro h; simp at h
  | cons c rest ih =>
    intro h
    by_cases hc : c = t
    · exact ⟨0, by simp [position, hc]⟩
    · have hmem : t ∈ rest := by
        rcases List.mem_cons.mp h with h1 | h1
        · exact absurd h1.symm hc
        · exact h1
      obtain ⟨w, hw⟩ := ih hmem
      exact ⟨w + 1, by simp [position, hc, hw]⟩

theorem position_none_of_not_mem (t : Nat) :
    ∀ l : List Nat, t ∉ l → position t l = none := by
  intro l
  induction l with
  | nil => intro _; rfl
  | cons c rest ih =>
    intro h
    have hc : c ≠ t := fun hc => h (by simp [hc])
    have hrest : t ∉ rest := fun hm => h (by simp [hm])
    simp [position, hc, ih hrest]

theorem char_to_6bit_ok (ch v : Nat) (h : char_to_6bit ch = .ok v) :
    v < 64 ∧ CHARSET.getD v 0 = toAsciiUppercase ch ∧ charIdx ch = v := by
  unfold char_to_6bit at h
  match hp : position (toAsciiUppercase ch) CHARSET with
  | none => rw [hp] at h; exact absurd h (by simp)
  | some p =>
    rw [hp] at h
    simp only [Except.ok.injEq] at h
    subst h
    refine ⟨?_, position_getD _ _ _ hp, ?_⟩
    · have := position_lt _ _ _ hp
      simpa [CHARSET] using this
    · unfold charIdx char_to_6bit
      rw [hp]

theorem char_to_6bit_err_iff (ch : Nat) :
    char_to_6bit ch = .error "Character not in supported charset" ↔
      toAsciiUppercase ch ∉ CHARSET := by
  constructor
  · intro h hmem
    obtain ⟨v, hv⟩ := position_of_mem _ _ hmem
    unfold char_to_6bit at h
    rw [hv] at h
    exact absurd h (by simp)
  · intro h
    unfold char_to_6bit
    rw [position_none_of_not_mem _ _ h]

theorem char_to_6bit_ok_of_mem (ch : Nat) (h : toAsciiUppercase ch ∈ CHARSET) :
    char_to_6bit ch = .ok (charIdx ch) := by
  obtain ⟨v, hv⟩ := position_of_mem _ _ h
  unfold char_to_6bit charIdx
  rw [hv]
  simp [char_to_6bit, hv]

theorem charset_upper_fixed : ∀ c ∈ CHARSET, toAsciiUppercase c = c := by decide

theorem charset_lt_128 : ∀ c ∈ CHARSET, c < 128 := by decide

theorem charset_getD_mem (v : Nat) (h : v < 64) : CHARSET.getD v 0 ∈ CHARSET := by
  have hlen : CHARSET.length = 64 := by decide
  rw [List.getD_eq_getElem _ _ (by omega)]
  exact List.getElem_mem _

theorem char_roundtrip (c : Nat) (h : c ∈ CHARSET) :
    CHARSET.getD (charIdx c) 0 = c ∧ charIdx c < 64 ∧ char_to_6bit c = .ok (charIdx c) := by
  have hup : toAsciiUppercase c = c := charset_upper_fixed c h
  have hok : char_to_6bit c = .ok (charIdx c) := char_to_6bit_ok_of_mem c (by rwa [hup])
  have := char_to_6bit_ok c (charIdx c) hok
  refine ⟨?_, this.1, hok⟩
  rw [this.2.1, hup]


theorem packStep_spec (L k N v : Nat) (hv : v < 64) (hfit : 6 * k + 6 ≤ 8 * L) :
    packStep (bytesBE (N * 2 ^ (8 * L - 6 * k)) L) (6 * k) v =
    bytesBE ((64 * N + v) * 2 ^ (8 * L - (6 * k + 6))) L := by
  set s := 8 * L - (6 * k + 6) with hs
  have hA : N * 2 ^ (8 * L - 6 * k) = 64 * N * 2 ^ s := by
    rw [show 8 * L - 6 * k = s + 6 by omega, pow_add, show (2:Nat)^6 = 64 by norm_num]
    ring
  rw [hA]
  have hmod : 6 * k % 8 = 0 ∨ 6 * k % 8 = 2 ∨ 6 * k % 8 = 4 ∨ 6 * k % 8 = 6 := by omega
  have hbiL : 6 * k / 8 < L := by omega
  rcases hmod with hm | hm | hm | hm
  · -- bit offset 0 inside the byte
    simp only [packStep]
    rw [hm, if_pos (by norm_num : (0:Nat) ≤ 2)]
    rw [bytesBE_getD _ _ _ hbiL]
    have hold : 64 * N * 2 ^ s / 2 ^ (8 * (L - 1 - 6 * k / 8)) % 256 = 0 := by
      rw [mul_pow_div_ge (64 * N) s (8 * (L - 1 - 6 * k / 8)) (by omega),
        show s - 8 * (L - 1 - 6 * k / 8) = 2 by omega, show (2:Nat) ^ 2 = 4 by norm_num]
      omega
    rw [hold, Nat.zero_or,
      show v <<< (2 - 0) % 256 = 4 * v from by
        rw [Nat.shiftLeft_eq, show (2:Nat) ^ (2 - 0) = 4 by norm_num]; omega]
    apply set_byte_eq _ _ _ _ _ hbiL
    · rw [mul_pow_div_ge (64 * N + v) s (8 * (L - 1 - 6 * k / 8)) (by omega),
        show s - 8 * (L - 1 - 6 * k / 8) = 2 by omega, show (2:Nat) ^ 2 = 4 by norm_num]
      omega
    · intro i hiL hne
      rcases (by omega : 8 * (L - 1 - i) + 8 ≤ s ∨ s + 6 ≤ 8 * (L - 1 - i)) with he | he
      · rw [byte_mul_pow_zero (64 * N) s _ he, byte_mul_pow_zero (64 * N + v) s _ he]
      · rw [mul_pow_div_le (64 * N) s _ (by omega), mul_pow_div_le (64 * N + v) s _ (by omega),
          div64_shift N v _ hv (by omega),
          show 64 * N / 2 ^ (8 * (L - 1 - i) - s) = N / 2 ^ (8 * (L - 1 - i) - s - 6) from by
            simpa using div64_shift N 0 (8 * (L - 1 - i) - s) (by norm_num) (by omega)]
  · -- bit offset 2 inside the byte
    simp only [packStep]
    rw [hm, if_pos (by norm_num : (2:Nat) ≤ 2)]
    rw [bytesBE_getD _ _ _ hbiL]
    have hold : 64 * N * 2 ^ s / 2 ^ (8 * (L - 1 - 6 * k / 8)) % 256 = 2 ^ 6 * (N % 4) := by
      rw [show 8 * (L - 1 - 6 * k / 8) = s from by omega,
        Nat.mul_div_cancel _ (Nat.two_pow_pos s), show (2:Nat) ^ 6 = 64 by norm_num]
      omega
    rw [hold,
      show v <<< (2 - 2) % 256 = v from by
        rw [Nat.sub_self, Nat.shiftLeft_zero]; omega,
      or_two_pow_mul 6 (N % 4) v (by simp only [show (2:Nat) ^ 6 = 64 from by norm_num]; omega)]
    apply set_byte_eq _ _ _ _ _ hbiL
    · rw [show 8 * (L - 1 - 6 * k / 8) = s from by omega,
        Nat.mul_div_cancel _ (Nat.two_pow_pos s), show (2:Nat) ^ 6 = 64 by norm_num]
      omega
    · intro i hiL hne
      rcases (by omega : 8 * (L - 1 - i) + 8 ≤ s ∨ s + 6 ≤ 8 * (L - 1 - i)) with he | he
      · rw [byte_mul_pow_zero (64 * N) s _ he, byte_mul_pow_zero (64 * N + v) s _ he]
      · rw [mul_pow_div_le (64 * N) s _ (by omega), mul_pow_div_le (64 * N + v) s _ (by omega),
          div64_shift N v _ hv (by omega),
          show 64 * N / 2 ^ (8 * (L - 1 - i) - s) = N / 2 ^ (8 * (L - 1 - i) - s - 6) from by
            simpa using div64_shift N 0 (8 * (L - 1 - i) - s) (by norm_num) (by omega)]
  · -- bit offset 4: the value spans two bytes (4 high bits, 2 low bits)
    simp only [packStep]
    rw [hm, if_neg (by norm_num : ¬((4:Nat) ≤ 2))]
    simp only [show (6:Nat) - (8 - 4) = 2 from by norm_num,
      show (8:Nat) - (6 - (8 - 4)) = 6 from by norm_num, List.length_set, bytesBE_length]
    have hbi1L : 6 * k / 8 + 1 < L := by omega
    rw [if_pos hbi1L]
    rw [bytesBE_getD _ _ _ hbiL]
    rw [getD_set (bytesBE (64 * N * 2 ^ s) L) (6 * k / 8) (6 * k / 8 + 1) _
        (by rw [bytesBE_length]; exact hbi1L),
      if_neg (by omega : ¬(6 * k / 8 = 6 * k / 8 + 1)),
      bytesBE_getD _ _ _ hbi1L]
    have hold1 : 64 * N * 2 ^ s / 2 ^ (8 * (L - 1 - 6 * k / 8)) % 256 = 2 ^ 4 * (N % 16) := by
      rw [mul_pow_div_le (64 * N) s (8 * (L - 1 - 6 * k / 8)) (by omega),
        show 8 * (L - 1 - 6 * k / 8) - s = 2 by omega, show (2:Nat) ^ 2 = 4 by norm_num,
        show (2:Nat) ^ 4 = 16 by norm_num]
      omega
    have hold2 : 64 * N * 2 ^ s / 2 ^ (8 * (L - 1 - (6 * k / 8 + 1))) % 256 = 0 := by
      rw [show 64 * N * 2 ^ s = N * 2 ^ (s + 6) from by
          rw [pow_add, show (2:Nat) ^ 6 = 64 by norm_num]; ring]
      exact byte_mul_pow_zero N (s + 6) _ (by omega)
    rw [hold1, hold2, Nat.zero_or,
      show v >>> 2 % 256 = v / 4 from by
        rw [Nat.shiftRight_eq_div_pow, show (2:Nat) ^ 2 = 4 by norm_num]; omega,
      show v <<< 6 % 256 = 64 * (v % 4) from by
        rw [Nat.shiftLeft_eq, show (2:Nat) ^ 6 = 64 by norm_num]; omega,
      or_two_pow_mul 4 (N % 16) (v / 4)
        (by simp only [show (2:Nat) ^ 4 = 16 from by norm_num]; omega)]
    apply set_two_bytes_eq _ _ _ _ _ _ hbi1L
    · rw [mul_pow_div_le (64 * N + v) s (8 * (L - 1 - 6 * k / 8)) (by omega),
        show 8 * (L - 1 - 6 * k / 8) - s = 2 by omega, show (2:Nat) ^ 2 = 4 by norm_num,
        show (2:Nat) ^ 4 = 16 by norm_num]
      omega
    · rw [mul_pow_div_ge (64 * N + v) s (8 * (L - 1 - (6 * k / 8 + 1))) (by omega),
        show s - 8 * (L - 1 - (6 * k / 8 + 1)) = 6 by omega, show (2:Nat) ^ 6 = 64 by norm_num]
      omega
    · intro i hiL hne1 hne2
      rcases (by omega : 8 * (L - 1 - i) + 8 ≤ s ∨ s + 6 ≤ 8 * (L - 1 - i)) with he | he
      · rw [byte_mul_pow_zero (64 * N) s _ he, byte_mul_pow_zero (64 * N + v) s _ he]
      · rw [mul_pow_div_le (64 * N) s _ (by omega), mul_pow_div_le (64 * N + v) s _ (by omega),
          div64_shift N v _ hv (by omega),
          show 64 * N / 2 ^ (8 * (L - 1 - i) - s) = N / 2 ^ (8 * (L - 1 - i) - s - 6) from by
            simpa using div64_shift N 0 (8 * (L - 1 - i) - s) (by norm_num) (by omega)]
  · -- bit offset 6: the value spans two bytes (2 high bits, 4 low bits)
    simp only [packStep]
    rw [hm, if_neg (by norm_num : ¬((6:Nat) ≤ 2))]
    simp only [show (6:Nat) - (8 - 6) = 4 from by norm_num,
      show (8:Nat) - (6 - (8 - 6)) = 4 from by norm_num, List.length_set, bytesBE_length]
    have hbi1L : 6 * k / 8 + 1 < L := by omega
    rw [if_pos hbi1L]
    rw [bytesBE_getD _ _ _ hbiL]
    rw [getD_set (bytesBE (64 * N * 2 ^ s) L) (6 * k / 8) (6 * k / 8 + 1) _
        (by rw [bytesBE_length]; exact hbi1L),
      if_neg (by omega : ¬(6 * k / 8 = 6 * k / 8 + 1)),
      bytesBE_getD _ _ _ hbi1L]
    have hold1 : 64 * N * 2 ^ s / 2 ^ (8 * (L - 1 - 6 * k / 8)) % 256 = 2 ^ 2 * (N % 64) := by
      rw [mul_pow_div_le (64 * N) s (8 * (L - 1 - 6 * k / 8)) (by omega),
        show 8 * (L - 1 - 6 * k / 8) - s = 4 by omega, show (2:Nat) ^ 4 = 16 by norm_num,
        show (2:Nat) ^ 2 = 4 by norm_num]
      omega
    have hold2 : 64 * N * 2 ^ s / 2 ^ (8 * (L - 1 - (6 * k / 8 + 1))) % 256 = 0 := by
      rw [show 64 * N * 2 ^ s = N * 2 ^ (s + 6) from by
          rw [pow_add, show (2:Nat) ^ 6 = 64 by norm_num]; ring]
      exact byte_mul_pow_zero N (s + 6) _ (by omega)
    rw [hold1, hold2, Nat.zero_or,
      show v >>> 4 % 256 = v / 16 from by
        rw [Nat.shiftRight_eq_div_pow, show (2:Nat) ^ 4 = 16 by norm_num]; omega,
      show v <<< 4 % 256 = 16 * (v % 16) from by
        rw [Nat.shiftLeft_eq, show (2:Nat) ^ 4 = 16 by norm_num]; omega,
      or_two_pow_mul 2 (N % 64) (v / 16)
        (by simp only [show (2:Nat) ^ 2 = 4 from by norm_num]; omega)]
    apply set_two_bytes_eq _ _ _ _ _ _ hbi1L
    · rw [mul_pow_div_le (64 * N + v) s (8 * (L - 1 - 6 * k / 8)) (by omega),
        show 8 * (L - 1 - 6 * k / 8) - s = 4 by omega, show (2:Nat) ^ 4 = 16 by norm_num,
        show (2:Nat) ^ 2 = 4 by norm_num]
      omega
    · rw [mul_pow_div_ge (64 * N + v) s (8 * (L - 1 - (6 * k / 8 + 1))) (by omega),
        show s - 8 * (L - 1 - (6 * k / 8 + 1)) = 4 by omega, show (2:Nat) ^ 4 = 16 by norm_num]
      omega
    · intro i hiL hne1 hne2
      rcases (by omega : 8 * (L - 1 - i) + 8 ≤ s ∨ s + 6 ≤ 8 * (L - 1 - i)) with he | he
      · rw [byte_mul_pow_zero (64 * N) s _ he, byte_mul_pow_zero (64 * N + v) s _ he]
      · rw [mul_pow_div_le (64 * N) s _ (by omega), mul_pow_div_le (64 * N + v) s _ (by omega),
          div64_shift N v _ hv (by omega),
          show 64 * N / 2 ^ (8 * (L - 1 - i) - s) = N / 2 ^ (8 * (L - 1 - i) - s - 6) from by
            simpa using div64_shift N 0 (8 * (L - 1 - i) - s) (by norm_num) (by omega)]

theorem packGo_spec : ∀ (text : List Nat) (k N L : Nat),
    (∀ ch ∈ text, toAsciiUppercase ch ∈ CHARSET) →
    6 * (k + text.length) ≤ 8 * L → N < 2 ^ (6 * k) →
    packGo text (6 * k) (bytesBE (N * 2 ^ (8 * L - 6 * k)) L) =
      .ok (bytesBE ((text.foldl (fun a ch => a * 64 + charIdx ch) N) *
        2 ^ (8 * L - 6 * (k + text.length))) L) := by
  intro text
  induction text with
  | nil =>
    intro k N L hval hfit hN
    simp [packGo]
  | cons ch rest ih =>
    intro k N L hval hfit hN
    have hch := char_to_6bit_ok_of_mem ch (hval ch (by simp))
    have hlt : charIdx ch < 64 := (char_to_6bit_ok ch (charIdx ch) hch).1
    have hfit1 : 6 * k + 6 ≤ 8 * L := by
      simp only [List.length_cons] at hfit
      omega
    simp only [packGo, hch]
    rw [packStep_spec L k N (charIdx ch) hlt hfit1]
    have hN1 : 64 * N + charIdx ch < 2 ^ (6 * (k + 1)) := by
      have hp : (2:Nat) ^ (6 * (k + 1)) = 64 * 2 ^ (6 * k) := by
        rw [show 6 * (k + 1) = 6 + 6 * k by ring, pow_add, show (2:Nat) ^ 6 = 64 by norm_num]
      rw [hp]
      omega
    have hfit2 : 6 * ((k + 1) + rest.length) ≤ 8 * L := by
      simp only [List.length_cons] at hfit
      omega
    have hih := ih (k + 1) (64 * N + charIdx ch) L
      (fun c hc => hval c (by simp [hc])) hfit2 hN1
    rw [show 6 * k + 6 = 6 * (k + 1) by ring, hih]
    simp only [List.foldl_cons, List.length_cons]
    rw [show N * 64 + charIdx ch = 64 * N + charIdx ch by ring,
      show k + (rest.length + 1) = k + 1 + rest.length by ring]

theorem pack_text_spec (text : List Nat)
    (hval : ∀ c ∈ text, toAsciiUppercase c ∈ CHARSET) :
    pack_text text = .ok (specPacked (text.map charIdx)) := by
  unfold pack_text specPacked
  have h0 := packGo_spec text 0 0 ((text.length * 6 + 7) / 8) hval (by omega) (by norm_num)
  simp only [Nat.mul_zero, Nat.sub_zero, Nat.zero_add, Nat.zero_mul, bytesBE_zero] at h0
  rw [h0]
  unfold msbConcat
  simp only [List.foldl_map, List.length_map]
  rw [show text.length * 6 = 6 * text.length by ring]

/-! ### 6-bit extraction from big-endian byte sequences -/

theorem byte_extract_0 (W d : Nat) :
    (W / 2 ^ d % 256) >>> 2 &&& 63 = W / 2 ^ (d + 2) % 64 := by
  rw [show (63:Nat) = 2 ^ 6 - 1 by norm_num, Nat.and_pow_two_sub_one_eq_mod,
    Nat.shiftRight_eq_div_pow, show (256:Nat) = 2 ^ 8 by norm_num,
    mod_pow_div (W / 2 ^ d) 8 2 (by norm_num), Nat.div_div_eq_div_mul, ← pow_add,
    show (8:Nat) - 2 = 6 by norm_num, Nat.mod_mod_of_dvd _ (dvd_refl _),
    show (64:Nat) = 2 ^ 6 by norm_num]

theorem byte_extract_2 (W d : Nat) :
    (W / 2 ^ d % 256) >>> 0 &&& 63 = W / 2 ^ d % 64 := by
  rw [Nat.shiftRight_zero, show (63:Nat) = 2 ^ 6 - 1 by norm_num,
    Nat.and_pow_two_sub_one_eq_mod, show (256:Nat) = 2 ^ 8 by norm_num,
    Nat.mod_mod_of_dvd _ (by decide : (2:Nat) ^ 6 ∣ 2 ^ 8),
    show (64:Nat) = 2 ^ 6 by norm_num]

theorem span_extract_42 (W u : Nat) :
    ((W / 2 ^ (u + 8) % 256 &&& 15) <<< 2) ||| ((W / 2 ^ u % 256) >>> 6) =
      W / 2 ^ (u + 6) % 64 := by
  have hhigh : W / 2 ^ (u + 8) % 256 &&& 15 = W / 2 ^ (u + 6) / 4 % 16 := by
    rw [show (15:Nat) = 2 ^ 4 - 1 by norm_num, Nat.and_pow_two_sub_one_eq_mod,
      show (256:Nat) = 2 ^ 8 by norm_num,
      Nat.mod_mod_of_dvd _ (by decide : (2:Nat) ^ 4 ∣ 2 ^ 8),
      show u + 8 = u + 6 + 2 by omega, pow_add (2:Nat) (u + 6) 2,
      ← Nat.div_div_eq_div_mul, show (2:Nat) ^ 2 = 4 by norm_num,
      show (16:Nat) = 2 ^ 4 by norm_num]
  have hlow : (W / 2 ^ u % 256) >>> 6 = W / 2 ^ (u + 6) % 4 := by
    rw [Nat.shiftRight_eq_div_pow, show (256:Nat) = 2 ^ 8 by norm_num,
      mod_pow_div (W / 2 ^ u) 8 6 (by norm_num), Nat.div_div_eq_div_mul, ← pow_add,
      show (8:Nat) - 6 = 2 by norm_num, show (4:Nat) = 2 ^ 2 by norm_num]
  rw [hhigh, hlow, Nat.shiftLeft_eq,
    show W / 2 ^ (u + 6) / 4 % 16 * 2 ^ 2 = 2 ^ 2 * (W / 2 ^ (u + 6) / 4 % 16) by ring,
    or_two_pow_mul 2 _ _
      (by simp only [show (2:Nat) ^ 2 = 4 from by norm_num]; omega),
    show (2:Nat) ^ 2 = 4 by norm_num]
  omega

theorem span_extract_24 (W u : Nat) :
    ((W / 2 ^ (u + 8) % 256 &&& 3) <<< 4) ||| ((W / 2 ^ u % 256) >>> 4) =
      W / 2 ^ (u + 4) % 64 := by
  have hhigh : W / 2 ^ (u + 8) % 256 &&& 3 = W / 2 ^ (u + 4) / 16 % 4 := by
    rw [show (3:Nat) = 2 ^ 2 - 1 by norm_num, Nat.and_pow_two_sub_one_eq_mod,
      show (256:Nat) = 2 ^ 8 by norm_num,
      Nat.mod_mod_of_dvd _ (by decide : (2:Nat) ^ 2 ∣ 2 ^ 8),
      show u + 8 = u + 4 + 4 by omega, pow_add (2:Nat) (u + 4) 4,
      ← Nat.div_div_eq_div_mul, show (2:Nat) ^ 4 = 16 by norm_num,
      show (4:Nat) = 2 ^ 2 by norm_num]
  have hlow : (W / 2 ^ u % 256) >>> 4 = W / 2 ^ (u + 4) % 16 := by
    rw [Nat.shiftRight_eq_div_pow, show (256:Nat) = 2 ^ 8 by norm_num,
      mod_pow_div (W / 2 ^ u) 8 4 (by norm_num), Nat.div_div_eq_div_mul, ← pow_add,
      show (8:Nat) - 4 = 4 by norm_num, show (16:Nat) = 2 ^ 4 by norm_num]
  rw [hhigh, hlow, Nat.shiftLeft_eq,
    show W / 2 ^ (u + 4) / 16 % 4 * 2 ^ 4 = 2 ^ 4 * (W / 2 ^ (u + 4) / 16 % 4) by ring,
    or_two_pow_mul 4 _ _
      (by simp only [show (2:Nat) ^ 4 = 16 from by norm_num]; omega),
    show (2:Nat) ^ 4 = 16 by norm_num]
  omega

theorem extractVal_spec (W L k : Nat) (hfit : 6 * k + 6 ≤ 8 * L) :
    extractVal (bytesBE W L) (6 * k) = .ok (W / 2 ^ (8 * L - (6 * k + 6)) % 64) := by
  have hbiL : 6 * k / 8 < L := by omega
  have hmod : 6 * k % 8 = 0 ∨ 6 * k % 8 = 2 ∨ 6 * k % 8 = 4 ∨ 6 * k % 8 = 6 := by omega
  simp only [extractVal, bytesBE_length]
  rw [if_neg (by omega : ¬(L ≤ 6 * k / 8))]
  rcases hmod with hm | hm | hm | hm
  · rw [hm, if_pos (by norm_num : (0:Nat) ≤ 2), bytesBE_getD _ _ _ hbiL,
      show (2:Nat) - 0 = 2 by norm_num, byte_extract_0,
      show 8 * (L - 1 - 6 * k / 8) + 2 = 8 * L - (6 * k + 6) from by omega]
  · rw [hm, if_pos (by norm_num : (2:Nat) ≤ 2), bytesBE_getD _ _ _ hbiL,
      show (2:Nat) - 2 = 0 by norm_num, byte_extract_2,
      show 8 * (L - 1 - 6 * k / 8) = 8 * L - (6 * k + 6) from by omega]
  · rw [hm, if_neg (by norm_num : ¬((4:Nat) ≤ 2))]
    have hbi1L : 6 * k / 8 + 1 < L := by omega
    rw [if_pos hbi1L, bytesBE_getD _ _ _ hbiL, bytesBE_getD _ _ _ hbi1L]
    simp only [show (6:Nat) - (8 - 4) = 2 from by norm_num,
      show (8:Nat) - (6 - (8 - 4)) = 6 from by norm_num,
      show (1:Nat) <<< (8 - 4) - 1 = 15 from by decide]
    rw [show 8 * (L - 1 - 6 * k / 8) = 8 * (L - 1 - (6 * k / 8 + 1)) + 8 from by omega,
      span_extract_42 W (8 * (L - 1 - (6 * k / 8 + 1))),
      show 8 * (L - 1 - (6 * k / 8 + 1)) + 6 = 8 * L - (6 * k + 6) from by omega]
  · rw [hm, if_neg (by norm_num : ¬((6:Nat) ≤ 2))]
    have hbi1L : 6 * k / 8 + 1 < L := by omega
    rw [if_pos hbi1L, bytesBE_getD _ _ _ hbiL, bytesBE_getD _ _ _ hbi1L]
    simp only [show (6:Nat) - (8 - 6) = 4 from by norm_num,
      show (8:Nat) - (6 - (8 - 6)) = 4 from by norm_num,
      show (1:Nat) <<< (8 - 6) - 1 = 3 from by decide]
    rw [show 8 * (L - 1 - 6 * k / 8) = 8 * (L - 1 - (6 * k / 8 + 1)) + 8 from by omega,
      span_extract_24 W (8 * (L - 1 - (6 * k / 8 + 1))),
      show 8 * (L - 1 - (6 * k / 8 + 1)) + 4 = 8 * L - (6 * k + 6) from by omega]

/-! ### Base-64 digit extraction from the concatenated stream -/

theorem foldl_msb (vs : List Nat) : ∀ a : Nat,
    vs.foldl (fun x y => x * 64 + y) a = a * 64 ^ vs.length + msbConcat vs := by
  induction vs with
  | nil => intro a; simp [msbConcat]
  | cons v rest ih =>
    intro a
    simp only [List.foldl_cons, List.length_cons, msbConcat, Nat.zero_mul, Nat.zero_add]
    rw [ih (a * 64 + v), ih v]
    ring

theorem msbConcat_lt (vs : List Nat) (h : ∀ v ∈ vs, v < 64) :
    msbConcat vs < 64 ^ vs.length := by
  induction vs with
  | nil => simp [msbConcat]
  | cons v rest ih =>
    have hv := h v (by simp)
    have hr := ih (fun x hx => h x (by simp [hx]))
    simp only [msbConcat, List.foldl_cons, List.length_cons, Nat.zero_mul, Nat.zero_add]
    rw [foldl_msb rest v]
    have h1 : v * 64 ^ rest.length + msbConcat rest < (v + 1) * 64 ^ rest.length := by
      rw [add_mul, one_mul]
      exact Nat.add_lt_add_left hr _
    have h2 : (v + 1) * 64 ^ rest.length ≤ 64 ^ (rest.length + 1) := by
      rw [pow_succ, mul_comm (64 ^ rest.length) 64]
      exact Nat.mul_le_mul_right _ (by omega)
    exact lt_of_lt_of_le h1 h2

theorem msbConcat_extract (vs : List Nat) (h : ∀ v ∈ vs, v < 64) :
    ∀ k, k < vs.length → msbConcat vs / 64 ^ (vs.length - 1 - k) % 64 = vs.getD k 0 := by
  induction vs with
  | nil => intro k hk; simp at hk
  | cons v rest ih =>
    intro k hk
    have hlt : msbConcat rest < 64 ^ rest.length :=
      msbConcat_lt rest (fun x hx => h x (by simp [hx]))
    have hcons : msbConcat (v :: rest) = v * 64 ^ rest.length + msbConcat rest := by
      simp only [msbConcat, List.foldl_cons, Nat.zero_mul, Nat.zero_add]
      rw [foldl_msb rest v]
      rfl
    cases k with
    | zero =>
      rw [hcons]
      simp only [List.getD_cons_zero, List.length_cons]
      rw [show rest.length + 1 - 1 - 0 = rest.length by omega, mul_comm v,
        Nat.mul_add_div (pow_pos (by norm_num) _), Nat.div_eq_of_lt hlt, Nat.add_zero]
      exact Nat.mod_eq_of_lt (h v (by simp))
    | succ j =>
      have hj : j < rest.length := by
        simp only [List.length_cons] at hk
        omega
      rw [hcons]
      simp only [List.getD_cons_succ, List.length_cons]
      rw [show rest.length + 1 - 1 - (j + 1) = rest.length - 1 - j by omega]
      have hsplit : v * 64 ^ rest.length =
          64 ^ (rest.length - 1 - j) * (v * 64 ^ (j + 1)) := by
        rw [mul_comm ((64:Nat) ^ (rest.length - 1 - j)) _, mul_assoc, ← pow_add,
          show (j + 1) + (rest.length - 1 - j) = rest.length by omega]
      rw [hsplit, Nat.mul_add_div (pow_pos (by norm_num) _),
        show v * 64 ^ (j + 1) = 64 * (v * 64 ^ j) from by rw [pow_succ]; ring,
        Nat.mul_add_mod]
      exact ih (fun x hx => h x (by simp [hx])) j hj

/-! ### Unpacking the specification-side packed bytes -/

theorem charset_length : CHARSET.length = 64 := by decide

theorem unpackLoop_spec (vals : List Nat) (hv : ∀ v ∈ vals, v < 64) :
    ∀ count k acc, k + count = vals.length → acc.length + count ≤ 64 →
    unpackLoop (specPacked vals) count (6 * k) acc =
      .ok (acc ++ (vals.drop k).map (fun v => CHARSET.getD v 0)) := by
  intro count
  induction count with
  | zero =>
    intro k acc hk hcap
    have hkl : k = vals.length := by omega
    subst hkl
    simp [unpackLoop, List.drop_length]
  | succ n ih =>
    intro k acc hk hcap
    have hkn : k < vals.length := by omega
    have hfit : 6 * k + 6 ≤ 8 * ((vals.length * 6 + 7) / 8) := by omega
    have hval : msbConcat vals * 2 ^ (8 * ((vals.length * 6 + 7) / 8) - vals.length * 6) /
        2 ^ (8 * ((vals.length * 6 + 7) / 8) - (6 * k + 6)) % 64 = vals.getD k 0 := by
      rw [mul_pow_div_le _ _ _ (by omega),
        show 8 * ((vals.length * 6 + 7) / 8) - (6 * k + 6) -
            (8 * ((vals.length * 6 + 7) / 8) - vals.length * 6) =
          6 * (vals.length - 1 - k) by omega,
        pow_mul, show (2:Nat) ^ 6 = 64 by norm_num]
      exact msbConcat_extract vals hv k hkn
    have hvlt : vals.getD k 0 < 64 := by
      rw [List.getD_eq_getElem _ _ hkn]
      exact hv _ (List.getElem_mem _)
    have hex : extractVal (specPacked vals) (6 * k) = .ok (vals.getD k 0) := by
      rw [show specPacked vals = bytesBE
          (msbConcat vals * 2 ^ (8 * ((vals.length * 6 + 7) / 8) - vals.length * 6))
          ((vals.length * 6 + 7) / 8) from rfl,
        extractVal_spec _ _ _ hfit, hval]
    have hsix : sixbit_to_char (vals.getD k 0) = .ok (CHARSET.getD (vals.getD k 0) 0) := by
      unfold sixbit_to_char
      rw [if_pos (by rw [charset_length]; exact hvlt)]
    simp only [unpackLoop, hex, hsix]
    rw [if_pos (by omega : acc.length < 64)]
    rw [show 6 * k + 6 = 6 * (k + 1) by ring]
    rw [ih (k + 1) (acc ++ [CHARSET.getD (vals.getD k 0) 0]) (by omega)
      (by simp only [List.length_append, List.length_singleton]; omega)]
    rw [List.drop_eq_getElem_cons hkn]
    simp only [List.map_cons, List.append_assoc, List.singleton_append]
    rw [List.getD_eq_getElem _ _ hkn]

theorem unpack_text_spec (vals : List Nat) (hv : ∀ v ∈ vals, v < 64)
    (hlen : vals.length ≤ 64) :
    unpack_text (specPacked vals) vals.length =
      .ok (vals.map (fun v => CHARSET.getD v 0)) := by
  have h := unpackLoop_spec vals hv vals.length 0 [] (by omega)
    (by simp only [List.length_nil]; omega)
  simpa [unpack_text] using h

/-! ### Totality analysis of unpacking on arbitrary byte buffers -/

theorem extractVal_err (packed : List Nat) (k : Nat)
    (h : packed.length < (6 * k + 13) / 8) :
    extractVal packed (6 * k) = .error "Insufficient packed data" := by
  simp only [extractVal]
  by_cases hfirst : packed.length ≤ 6 * k / 8
  · rw [if_pos hfirst]
  · rw [if_neg hfirst]
    have hm : 6 * k % 8 = 4 ∨ 6 * k % 8 = 6 := by omega
    rcases hm with hm | hm
    · rw [hm, if_neg (by norm_num : ¬((4:Nat) ≤ 2)), if_neg (by omega)]
    · rw [hm, if_neg (by norm_num : ¬((6:Nat) ≤ 2)), if_neg (by omega)]

theorem extractVal_ok (packed : List Nat) (k : Nat) (hb : ∀ b ∈ packed, b < 256)
    (h : (6 * k + 13) / 8 ≤ packed.length) :
    ∃ v, extractVal packed (6 * k) = .ok v ∧ v < 64 := by
  have hmod : 6 * k % 8 = 0 ∨ 6 * k % 8 = 2 ∨ 6 * k % 8 = 4 ∨ 6 * k % 8 = 6 := by omega
  simp only [extractVal]
  rcases hmod with hm | hm | hm | hm
  · rw [hm, if_neg (by omega : ¬(packed.length ≤ 6 * k / 8)),
      if_pos (by norm_num : (0:Nat) ≤ 2)]
    refine ⟨_, rfl, ?_⟩
    rw [show (63:Nat) = 2 ^ 6 - 1 by norm_num, Nat.and_pow_two_sub_one_eq_mod]
    exact lt_of_lt_of_le (Nat.mod_lt _ (by norm_num)) (by norm_num)
  · rw [hm, if_neg (by omega : ¬(packed.length ≤ 6 * k / 8)),
      if_pos (by norm_num : (2:Nat) ≤ 2)]
    refine ⟨_, rfl, ?_⟩
    rw [show (63:Nat) = 2 ^ 6 - 1 by norm_num, Nat.and_pow_two_sub_one_eq_mod]
    exact lt_of_lt_of_le (Nat.mod_lt _ (by norm_num)) (by norm_num)
  · rw [hm, if_neg (by omega : ¬(packed.length ≤ 6 * k / 8)),
      if_neg (by norm_num : ¬((4:Nat) ≤ 2)), if_pos (by omega)]
    refine ⟨_, rfl, ?_⟩
    have hb2 : packed.getD (6 * k / 8 + 1) 0 < 256 := by
      rw [List.getD_eq_getElem _ _ (by omega)]
      exact hb _ (List.getElem_mem _)
    simp only [show (1:Nat) <<< (8 - 4) - 1 = 15 from by decide,
      show (6:Nat) - (8 - 4) = 2 from by norm_num,
      show (8:Nat) - (6 - (8 - 4)) = 6 from by norm_num]
    rw [show (64:Nat) = 2 ^ 6 by norm_num]
    apply Nat.or_lt_two_pow
    · rw [show (15:Nat) = 2 ^ 4 - 1 by norm_num, Nat.and_pow_two_sub_one_eq_mod,
        Nat.shiftLeft_eq]
      have h16 : packed.getD (6 * k / 8) 0 % 2 ^ 4 < 2 ^ 4 := Nat.mod_lt _ (by norm_num)
      simp only [show (2:Nat) ^ 4 = 16 from by norm_num,
        show (2:Nat) ^ 2 = 4 from by norm_num,
        show (2:Nat) ^ 6 = 64 from by norm_num] at h16 ⊢
      omega
    · rw [Nat.shiftRight_eq_div_pow]
      simp only [show (2:Nat) ^ 6 = 64 from by norm_num]
      omega
  · rw [hm, if_neg (by omega : ¬(packed.length ≤ 6 * k / 8)),
      if_neg (by norm_num : ¬((6:Nat) ≤ 2)), if_pos (by omega)]
    refine ⟨_, rfl, ?_⟩
    have hb2 : packed.getD (6 * k / 8 + 1) 0 < 256 := by
      rw [List.getD_eq_getElem _ _ (by omega)]
      exact hb _ (List.getElem_mem _)
    simp only [show (1:Nat) <<< (8 - 6) - 1 = 3 from by decide,
      show (6:Nat) - (8 - 6) = 4 from by norm_num,
      show (8:Nat) - (6 - (8 - 6)) = 4 from by norm_num]
    rw [show (64:Nat) = 2 ^ 6 by norm_num]
    apply Nat.or_lt_two_pow
    · rw [show (3:Nat) = 2 ^ 2 - 1 by norm_num, Nat.and_pow_two_sub_one_eq_mod,
        Nat.shiftLeft_eq]
      have h4 : packed.getD (6 * k / 8) 0 % 2 ^ 2 < 2 ^ 2 := Nat.mod_lt _ (by norm_num)
      simp only [show (2:Nat) ^ 2 = 4 from by norm_num,
        show (2:Nat) ^ 4 = 16 from by norm_num,
        show (2:Nat) ^ 6 = 64 from by norm_num] at h4 ⊢
      omega
    · rw [Nat.shiftRight_eq_div_pow]
      simp only [show (2:Nat) ^ 4 = 16 from by norm_num,
        show (2:Nat) ^ 6 = 64 from by norm_num]
      omega

theorem unpackLoop_chars (packed : List Nat) (hb : ∀ b ∈ packed, b < 256) :
    ∀ count k acc, (6 * (k + count) + 7) / 8 ≤ packed.length → acc.length + count ≤ 64 →
    ∃ t, unpackLoop packed count (6 * k) acc = .ok t ∧ t.length = acc.length + count ∧
      ∀ c ∈ t, c ∈ acc ∨ c ∈ CHARSET := by
  intro count
  induction count with
  | zero =>
    intro k acc h1 h2
    exact ⟨acc, by simp [unpackLoop], by simp, fun c hc => .inl hc⟩
  | succ n ih =>
    intro k acc h1 h2
    obtain ⟨v, hv, hvlt⟩ := extractVal_ok packed k hb (by omega)
    have hsix : sixbit_to_char v = .ok (CHARSET.getD v 0) := by
      unfold sixbit_to_char
      rw [if_pos (by rw [charset_length]; exact hvlt)]
    simp only [unpackLoop, hv, hsix]
    rw [if_pos (by omega : acc.length < 64), show 6 * k + 6 = 6 * (k + 1) by ring]
    obtain ⟨t, ht, hlen, hmem⟩ := ih (k + 1) (acc ++ [CHARSET.getD v 0]) (by omega)
      (by simp only [List.length_append, List.length_singleton]; omega)
    refine ⟨t, ht, ?_, ?_⟩
    · simp only [List.length_append, List.length_singleton] at hlen
      omega
    · intro c hc
      rcases hmem c hc with hca | hcs
      · rcases List.mem_append.mp hca with hmem2 | hmem2
        · exact .inl hmem2
        · simp only [List.mem_singleton] at hmem2
          subst hmem2
          exact .inr (charset_getD_mem v hvlt)
      · exact .inr hcs

theorem unpackLoop_cap (packed : List Nat) (hb : ∀ b ∈ packed, b < 256) :
    ∀ count k acc, 64 < acc.length + count → acc.length ≤ 64 →
    (6 * (k + (64 - acc.length)) + 13) / 8 ≤ packed.length →
    unpackLoop packed count (6 * k) acc = .error "String capacity exceeded" := by
  intro count
  induction count with
  | zero =>
    intro k acc h1 h2 h3
    exact absurd h1 (by omega)
  | succ n ih =>
    intro k acc h1 h2 h3
    obtain ⟨v, hv, hvlt⟩ := extractVal_ok packed k hb (by omega)
    have hsix : sixbit_to_char v = .ok (CHARSET.getD v 0) := by
      unfold sixbit_to_char
      rw [if_pos (by rw [charset_length]; exact hvlt)]
    simp only [unpackLoop, hv, hsix]
    by_cases hacc : acc.length < 64
    · rw [if_pos hacc, show 6 * k + 6 = 6 * (k + 1) by ring]
      exact ih (k + 1) (acc ++ [CHARSET.getD v 0])
        (by simp only [List.length_append, List.length_singleton]; omega)
        (by simp only [List.length_append, List.length_singleton]; omega)
        (by simp only [List.length_append, List.length_singleton]; omega)
    · rw [if_neg hacc]

theorem unpackLoop_insuff (packed : List Nat) (hb : ∀ b ∈ packed, b < 256) :
    ∀ count k acc, 1 ≤ count → acc.length ≤ 64 →
    packed.length < (6 * (k + min (count - 1) (64 - acc.length)) + 13) / 8 →
    unpackLoop packed count (6 * k) acc = .error "Insufficient packed data" := by
  intro count
  induction count with
  | zero =>
    intro k acc h1 _ _
    exact absurd h1 (by omega)
  | succ n ih =>
    intro k acc _ h2 h3
    by_cases hlen : packed.length < (6 * k + 13) / 8
    · simp only [unpackLoop, extractVal_err packed k hlen]
    · push_neg at hlen
      obtain ⟨v, hv, hvlt⟩ := extractVal_ok packed k hb hlen
      have hsix : sixbit_to_char v = .ok (CHARSET.getD v 0) := by
        unfold sixbit_to_char
        rw [if_pos (by rw [charset_length]; exact hvlt)]
      simp only [unpackLoop, hv, hsix]
      rw [if_pos (by omega : acc.length < 64), show 6 * k + 6 = 6 * (k + 1) by ring]
      exact ih (k + 1) (acc ++ [CHARSET.getD v 0]) (by omega)
        (by simp only [List.length_append, List.length_singleton]; omega)
        (by simp only [List.length_append, List.length_singleton]; omega)

theorem unpackLoop_err_shape (packed : List Nat) (hb : ∀ b ∈ packed, b < 256) :
    ∀ count k acc e, unpackLoop packed count (6 * k) acc = .error e →
      e = "Insufficient packed data" ∨ e = "String capacity exceeded" := by
  intro count
  induction count with
  | zero =>
    intro k acc e h
    simp [unpackLoop] at h
  | succ n ih =>
    intro k acc e h
    by_cases hlen : packed.length < (6 * k + 13) / 8
    · simp only [unpackLoop, extractVal_err packed k hlen, Except.error.injEq] at h
      exact .inl h.symm
    · push_neg at hlen
      obtain ⟨v, hv, hvlt⟩ := extractVal_ok packed k hb hlen
      have hsix : sixbit_to_char v = .ok (CHARSET.getD v 0) := by
        unfold sixbit_to_char
        rw [if_pos (by rw [charset_length]; exact hvlt)]
      simp only [unpackLoop, hv, hsix] at h
      by_cases hacc : acc.length < 64
      · rw [if_pos hacc, show 6 * k + 6 = 6 * (k + 1) by ring] at h
        exact ih (k + 1) _ e h
      · rw [if_neg hacc] at h
        simp only [Except.error.injEq] at h
        exact .inr h.symm

/-! ### Serialize / deserialize structure lemmas -/

theorem utf8Len_pos (c : Nat) : 1 ≤ utf8Len c := by
  unfold utf8Len
  split <;> try split <;> try split
  all_goals omega

theorem byteLen_of_ascii (text : List Nat) (h : ∀ c ∈ text, c < 128) :
    byteLen text = text.length := by
  induction text with
  | nil => rfl
  | cons c rest ih =>
    have hc : utf8Len c = 1 := by
      unfold utf8Len
      rw [if_pos (h c (by simp))]
    simp only [byteLen, List.map_cons, List.sum_cons, List.length_cons] at *
    rw [hc, ih (fun x hx => h x (by simp [hx]))]
    omega

theorem length_le_byteLen (text : List Nat) : text.length ≤ byteLen text := by
  induction text with
  | nil => simp [byteLen]
  | cons c rest ih =>
    have := utf8Len_pos c
    simp only [byteLen, List.map_cons, List.sum_cons, List.length_cons] at *
    omega

theorem upper_mem_lt_128 (c : Nat) (h : toAsciiUppercase c ∈ CHARSET) : c < 128 := by
  by_contra hc
  push_neg at hc
  have hfix : toAsciiUppercase c = c := by
    unfold toAsciiUppercase
    rw [if_neg (by omega)]
  rw [hfix] at h
  have := charset_lt_128 c h
  omega

theorem specPacked_length (vals : List Nat) :
    (specPacked vals).length = (vals.length * 6 + 7) / 8 := by
  unfold specPacked
  rw [bytesBE_length]

theorem serialize_text_ok (seq : Nat) (text : List Nat) (bufLen : Nat)
    (hval : ∀ c ∈ text, toAsciiUppercase c ∈ CHARSET)
    (hlen : text.length ≤ 50)
    (hbuf : 4 + (text.length * 6 + 7) / 8 ≤ bufLen) :
    Message.serialize (.Text ⟨seq, text⟩) bufLen =
      .ok ([1, seq, text.length, (text.length * 6 + 7) / 8] ++
        specPacked (text.map charIdx)) := by
  have hascii : ∀ c ∈ text, c < 128 := fun c hc => upper_mem_lt_128 c (hval c hc)
  have hbl : byteLen text = text.length := byteLen_of_ascii text hascii
  have hplen : (specPacked (text.map charIdx)).length = (text.length * 6 + 7) / 8 := by
    rw [specPacked_length, List.length_map]
  simp only [Message.serialize, MAX_TEXT_LENGTH]
  rw [if_neg (by rw [hbl]; omega)]
  simp only [pack_text_spec text hval]
  rw [if_neg (by rw [hplen]; omega), hbl, hplen,
    Nat.mod_eq_of_lt (by omega : text.length < 256),
    Nat.mod_eq_of_lt (by omega : (text.length * 6 + 7) / 8 < 256)]

theorem serialize_gps (g : GpsMessage) (bufLen : Nat) (h : 10 ≤ bufLen) :
    Message.serialize (.Gps g) bufLen =
      .ok ([2, g.seq] ++ i32ToLeBytes g.lat ++ i32ToLeBytes g.lon) := by
  simp only [Message.serialize]
  rw [if_neg (by omega)]

theorem serialize_ack (a : AckMessage) (bufLen : Nat) (h : 2 ≤ bufLen) :
    Message.serialize (.Ack a) bufLen = .ok [3, a.seq] := by
  simp only [Message.serialize]
  rw [if_neg (by omega)]

theorem deserialize_text_shaped (seq cc : Nat) (packed : List Nat) :
    Message.deserialize (1 :: seq :: cc :: packed.length :: packed) =
      match unpack_text packed cc with
      | .ok t => .ok (.Text ⟨seq, t⟩)
      | .error e => .error e := by
  unfold Message.deserialize
  simp only [List.isEmpty_cons, Bool.false_eq_true, if_false, List.getD_cons_zero,
    List.getD_cons_succ, List.length_cons, if_pos rfl, if_true]
  rw [if_neg (by omega), if_neg (by omega)]
  simp only [List.drop_succ_cons, List.drop_zero, List.take_length]
  cases unpack_text packed cc <;> rfl

theorem deserialize_gps_frame (seq a0 a1 a2 a3 b0 b1 b2 b3 : Nat) :
    Message.deserialize [2, seq, a0, a1, a2, a3, b0, b1, b2, b3] =
      .ok (.Gps ⟨seq, i32FromLeBytes a0 a1 a2 a3, i32FromLeBytes b0 b1 b2 b3⟩) := rfl

theorem deserialize_ack_frame (seq : Nat) :
    Message.deserialize [3, seq] = .ok (.Ack ⟨seq⟩) := rfl

theorem i32_le_roundtrip (x : Int) (h1 : -2147483648 ≤ x) (h2 : x < 2147483648) :
    i32FromLeBytes ((x % 4294967296).toNat % 256) ((x % 4294967296).toNat / 256 % 256)
      ((x % 4294967296).toNat / 65536 % 256) ((x % 4294967296).toNat / 16777216 % 256) =
      x := by
  have hrecon : (x % 4294967296).toNat % 256 + 256 * ((x % 4294967296).toNat / 256 % 256) +
      65536 * ((x % 4294967296).toNat / 65536 % 256) +
      16777216 * ((x % 4294967296).toNat / 16777216 % 256) = (x % 4294967296).toNat := by
    omega
  unfold i32FromLeBytes
  rw [hrecon]
  show (if (x % 4294967296).toNat < 2147483648 then ((x % 4294967296).toNat : Int)
    else ((x % 4294967296).toNat : Int) - 4294967296) = x
  split
  · omega
  · omega

/-! ### Remaining helper lemmas -/

theorem packGo_err (text : List Nat) :
    ∀ off res, (∃ c ∈ text, toAsciiUppercase c ∉ CHARSET) →
    packGo text off res = .error "Character not in supported charset" := by
  induction text with
  | nil =>
    intro off res h
    obtain ⟨c, hc, _⟩ := h
    simp at hc
  | cons ch rest ih =>
    intro off res h
    by_cases hch : toAsciiUppercase ch ∈ CHARSET
    · have hok := char_to_6bit_ok_of_mem ch hch
      simp only [packGo, hok]
      apply ih
      obtain ⟨c, hc, hcn⟩ := h
      rcases List.mem_cons.mp hc with rfl | hmem
      · exact absurd hch hcn
      · exact ⟨c, hmem, hcn⟩
    · have herr : char_to_6bit ch = .error "Character not in supported charset" :=
        (char_to_6bit_err_iff ch).mpr hch
      simp only [packGo, herr]

theorem packGo_ok (text : List Nat) :
    ∀ off res, (∀ c ∈ text, toAsciiUppercase c ∈ CHARSET) →
    ∃ r, packGo text off res = .ok r := by
  induction text with
  | nil => intro off res _; exact ⟨res, rfl⟩
  | cons ch rest ih =>
    intro off res h
    have hok := char_to_6bit_ok_of_mem ch (h ch (by simp))
    simp only [packGo, hok]
    exact ih _ _ (fun c hc => h c (by simp [hc]))

theorem unpackLoop_mem (packed : List Nat) (hb : ∀ b ∈ packed, b < 256) :
    ∀ count k acc t, unpackLoop packed count (6 * k) acc = .ok t →
      (∀ c ∈ acc, c ∈ CHARSET) → ∀ c ∈ t, c ∈ CHARSET := by
  intro count
  induction count with
  | zero =>
    intro k acc t h hacc
    simp only [unpackLoop, Except.ok.injEq] at h
    subst h
    exact hacc
  | succ n ih =>
    intro k acc t h hacc
    by_cases hlen : packed.length < (6 * k + 13) / 8
    · simp only [unpackLoop, extractVal_err packed k hlen] at h
      exact absurd h (by simp)
    · push_neg at hlen
      obtain ⟨v, hv, hvlt⟩ := extractVal_ok packed k hb hlen
      have hsix : sixbit_to_char v = .ok (CHARSET.getD v 0) := by
        unfold sixbit_to_char
        rw [if_pos (by rw [charset_length]; exact hvlt)]
      simp only [unpackLoop, hv, hsix] at h
      by_cases hacc64 : acc.length < 64
      · rw [if_pos hacc64, show 6 * k + 6 = 6 * (k + 1) by ring] at h
        refine ih (k + 1) (acc ++ [CHARSET.getD v 0]) t h ?_
        intro c hc
        rcases List.mem_append.mp hc with hm | hm
        · exact hacc c hm
        · simp only [List.mem_singleton] at hm
          subst hm
          exact charset_getD_mem v hvlt
      · rw [if_neg hacc64] at h
        exact absurd h (by simp)

theorem map_getD_charIdx (text : List Nat) (h : ∀ c ∈ text, c ∈ CHARSET) :
    (text.map charIdx).map (fun v => CHARSET.getD v 0) = text := by
  induction text with
  | nil => rfl
  | cons c rest ih =>
    simp only [List.map_cons, List.cons.injEq]
    exact ⟨(char_roundtrip c (h c (by simp))).1, ih (fun x hx => h x (by simp [hx]))⟩

/-! ### Claim C1 -/

/-- C1 counterexample: the claim quantifies over texts whose characters are
valid only after case-folding.  The lowercase text "s" (code 115) is valid in
that sense, but `Decode(Encode(m))` returns the uppercase "S" (code 83), not
`m`: the codec canonicalizes case, so the round trip is not the identity on
all such messages. -/
theorem roundtrip_casefold_counterexample :
    Message.serialize (.Text ⟨1, [115]⟩) 64 = .ok [1, 1, 1, 1, 76] ∧
    Message.deserialize [1, 1, 1, 1, 76] = .ok (.Text ⟨1, [83]⟩) ∧
    Message.Text ⟨1, [83]⟩ ≠ Message.Text ⟨1, [115]⟩ ∧
    toAsciiUppercase 115 ∈ CHARSET ∧ (115:Nat) ∉ CHARSET :=
  ⟨by rfl, by rfl, by decide, by decide, by decide⟩

/-- C1 (amended): for every valid `Message` whose Text characters are drawn
literally from the (uppercase-only) 64-symbol alphabet — and any Gps or Ack
with `u8`/`i32`-ranged fields — deserializing the serialized frame yields
exactly the original message: `Decode(Encode(m)) = m`. -/
theorem roundtrip_valid (m : Message) (hm : m.valid) :
    ∃ f, Message.serialize m 64 = .ok f ∧ Message.deserialize f = .ok m := by
  cases m with
  | Text t =>
    obtain ⟨seq, text⟩ := t
    simp only [Message.valid] at hm
    obtain ⟨hseq, hlen, hchars⟩ := hm
    have hval : ∀ c ∈ text, toAsciiUppercase c ∈ CHARSET := fun c hc => by
      rw [charset_upper_fixed c (hchars c hc)]
      exact hchars c hc
    refine ⟨_, serialize_text_ok seq text 64 hval hlen (by omega), ?_⟩
    have hvals_lt : ∀ v ∈ text.map charIdx, v < 64 := by
      intro v hv
      obtain ⟨c, hc, hcv⟩ := List.mem_map.mp hv
      rw [← hcv]
      exact (char_roundtrip c (hchars c hc)).2.1
    have hplen : (specPacked (text.map charIdx)).length = (text.length * 6 + 7) / 8 := by
      rw [specPacked_length, List.length_map]
    have hshape : [1, seq, text.length, (text.length * 6 + 7) / 8] ++
        specPacked (text.map charIdx) =
        1 :: seq :: text.length :: (specPacked (text.map charIdx)).length ::
          specPacked (text.map charIdx) := by
      rw [hplen]
      rfl
    rw [hshape, deserialize_text_shaped]
    have hunp := unpack_text_spec (text.map charIdx) hvals_lt
      (by rw [List.length_map]; omega)
    rw [show text.length = (text.map charIdx).length from (List.length_map _ _).symm, hunp,
      map_getD_charIdx text hchars]
  | Gps g =>
    simp only [Message.valid] at hm
    obtain ⟨hseq, h1, h2, h3, h4⟩ := hm
    refine ⟨_, serialize_gps g 64 (by norm_num), ?_⟩
    show Message.deserialize ([2, g.seq] ++ i32ToLeBytes g.lat ++ i32ToLeBytes g.lon) =
      .ok (.Gps g)
    simp only [i32ToLeBytes, List.cons_append, List.nil_append]
    rw [deserialize_gps_frame, i32_le_roundtrip g.lat h1 h2, i32_le_roundtrip g.lon h3 h4]
  | Ack a =>
    exact ⟨_, serialize_ack a 64 (by norm_num), deserialize_ack_frame a.seq⟩

/-- C1 witness: the round trip instantiated at `Text{seq:42, text:"SOS"}`. -/
theorem roundtrip_valid_witness :
    (Message.Text ⟨42, [83, 79, 83]⟩).valid ∧
    ∃ f, Message.serialize (.Text ⟨42, [83, 79, 83]⟩) 64 = .ok f ∧
      Message.deserialize f = .ok (.Text ⟨42, [83, 79, 83]⟩) :=
  ⟨by decide, roundtrip_valid _ (by decide)⟩

/-! ### Claim C3 -/

/-- C3: for every valid Text message with `L` characters (`L ≤ 50`, all
characters in the alphabet after case-folding) and a large-enough buffer,
Encode produces the frame `[0x01, seq, L, ceil(L*6/8)]` followed by the
characters' 6-bit alphabet indices concatenated MSB-first with trailing
zero padding (`specPacked`), for a total length of `4 + ceil(L*6/8)`;
for `L = 50` the packed length is 38 and the total 42. -/
theorem text_frame_layout (seq : Nat) (text : List Nat) (bufLen : Nat)
    (hval : ∀ c ∈ text, toAsciiUppercase c ∈ CHARSET)
    (hlen : text.length ≤ 50)
    (hbuf : 4 + (text.length * 6 + 7) / 8 ≤ bufLen) :
    Message.serialize (.Text ⟨seq, text⟩) bufLen =
      .ok ([1, seq, text.length, (text.length * 6 + 7) / 8] ++
        specPacked (text.map charIdx)) ∧
    (∀ f, Message.serialize (.Text ⟨seq, text⟩) bufLen = .ok f →
      f.length = 4 + (text.length * 6 + 7) / 8) ∧
    (text.length = 50 → (text.length * 6 + 7) / 8 = 38 ∧
      4 + (text.length * 6 + 7) / 8 = 42) := by
  have hs := serialize_text_ok seq text bufLen hval hlen hbuf
  refine ⟨hs, ?_, fun h50 => by omega⟩
  intro f hf
  rw [hs] at hf
  simp only [Except.ok.injEq] at hf
  subst hf
  simp only [List.length_append, List.length_cons, List.length_nil, specPacked_length,
    List.length_map]

/-- C3 witness: `Text{seq:42, text:"SOS"}` encodes to the 7 bytes
`01 2A 03 03 4C F4 C0`. -/
theorem text_frame_layout_witness :
    (∀ c ∈ [83, 79, 83], toAsciiUppercase c ∈ CHARSET) ∧
    Message.serialize (.Text ⟨42, [83, 79, 83]⟩) 64 =
      .ok [1, 42, 3, 3, 76, 244, 192] := by
  refine ⟨by decide, ?_⟩
  rw [(text_frame_layout 42 [83, 79, 83] 64 (by decide) (by decide) (by decide)).1]
  rfl

/-! ### Claim C4 -/

/-- C4 counterexample: a text of 51 copies of the tilde (code 126, not in
the alphabet even after case-folding) contains an unsupported character,
yet Encode fails with the length error, not the unsupported-character
error — the "iff" of the claim fails because the length check runs first. -/
theorem encode_error_order_counterexample :
    Message.serialize (.Text ⟨0, List.replicate 51 126⟩) 64 = .error "Text too long" ∧
    (126 ∈ List.replicate 51 126) ∧ toAsciiUppercase 126 ∉ CHARSET ∧
    Message.serialize (.Text ⟨0, List.replicate 51 126⟩) 64 ≠
      .error "Character not in supported charset" :=
  ⟨by rfl, by decide, by decide, by decide⟩

/-- C4 (amended): Encode of a Text fails with `Text too long` whenever the
character count exceeds 50 (unconditionally); for texts that pass the
length check (UTF-8 byte length at most 50) it fails with the
unsupported-character error iff the text contains a character that,
case-folded to uppercase, is not in the 64-symbol alphabet; and for
fully-supported texts of at most 50 characters it fails with
`Buffer too small` when the buffer is shorter than the computed frame
length. -/
theorem encode_error_conditions (seq : Nat) (text : List Nat) (bufLen : Nat) :
    (50 < text.length →
      Message.serialize (.Text ⟨seq, text⟩) bufLen = .error "Text too long") ∧
    (byteLen text ≤ 50 →
      (Message.serialize (.Text ⟨seq, text⟩) bufLen =
          .error "Character not in supported charset" ↔
        ∃ c ∈ text, toAsciiUppercase c ∉ CHARSET)) ∧
    ((∀ c ∈ text, toAsciiUppercase c ∈ CHARSET) → text.length ≤ 50 →
      bufLen < 4 + (text.length * 6 + 7) / 8 →
      Message.serialize (.Text ⟨seq, text⟩) bufLen = .error "Buffer too small") := by
  refine ⟨?_, ?_, ?_⟩
  · intro h
    have := length_le_byteLen text
    simp only [Message.serialize, MAX_TEXT_LENGTH]
    rw [if_pos (by omega)]
  · intro hbl
    constructor
    · intro herr
      by_contra hall
      push_neg at hall
      obtain ⟨r, hr⟩ := packGo_ok text 0 (List.replicate ((text.length * 6 + 7) / 8) 0) hall
      have hp : pack_text text = .ok r := hr
      simp only [Message.serialize, MAX_TEXT_LENGTH] at herr
      rw [if_neg (by omega)] at herr
      simp only [hp] at herr
      split at herr <;> simp at herr
    · rintro ⟨c, hc, hcn⟩
      simp only [Message.serialize, MAX_TEXT_LENGTH]
      rw [if_neg (by omega)]
      have herr : pack_text text = .error "Character not in supported charset" :=
        packGo_err text 0 _ ⟨c, hc, hcn⟩
      simp only [herr]
  · intro hall hlen hbuf
    simp only [Message.serialize, MAX_TEXT_LENGTH]
    have hascii : ∀ c ∈ text, c < 128 := fun c hc => upper_mem_lt_128 c (hall c hc)
    rw [if_neg (by rw [byteLen_of_ascii text hascii]; omega)]
    simp only [pack_text_spec text hall]
    rw [if_pos (by rw [specPacked_length, List.length_map]; omega)]

/-- C4 witness: a single unsupported character (tilde) inside the length
bound makes Encode fail with the unsupported-character error. -/
theorem encode_error_conditions_witness :
    Message.serialize (.Text ⟨0, [126]⟩) 64 = .error "Character not in supported charset" :=
  ((encode_error_conditions 0 [126] 64).2.1 (by decide)).mpr ⟨126, by decide, by decide⟩

/-! ### Claim C5 -/

/-- C5 counterexample: the buffer `[1, 0, 66, 49]` followed by 49 zero
bytes declares 66 characters, which reads past its 49-byte packed region
(50 bytes would be needed), yet Decode fails with the string-capacity
error, not the insufficient-data error: the 64-character capacity of the
output string is exhausted first. -/
theorem decode_truncation_counterexample :
    49 < (6 * 66 + 7) / 8 ∧
    Message.deserialize ([1, 0, 66, 49] ++ List.replicate 49 0) =
      .error "String capacity exceeded" ∧
    Message.deserialize ([1, 0, 66, 49] ++ List.replicate 49 0) ≠
      .error "Insufficient packed data" :=
  ⟨by norm_num, by rfl, by decide⟩

/-- C5 (amended): Decode is total over all byte buffers; an empty buffer
fails with `Empty buffer`; a first byte outside 1, 2, 3 fails with
`Unknown message type`; a Text buffer shorter than its header or its
declared packed length fails with the corresponding truncation error; and
a declared `char_count` that would read past the packed byte region fails
with `Insufficient packed data` — except when more than 64 characters are
declared over a packed region of at least 49 bytes, in which case the
64-character string capacity is exhausted first and Decode fails with
`String capacity exceeded` instead. -/
theorem decode_malformed :
    Message.deserialize [] = .error "Empty buffer" ∧
    (∀ (b0 : Nat) (rest : List Nat), b0 ≠ 1 → b0 ≠ 2 → b0 ≠ 3 →
      Message.deserialize (b0 :: rest) = .error "Unknown message type") ∧
    (∀ rest : List Nat, rest.length < 3 →
      Message.deserialize (1 :: rest) = .error "Buffer too small for text message header") ∧
    (∀ (seq cc pl : Nat) (rest : List Nat), rest.length < pl →
      Message.deserialize (1 :: seq :: cc :: pl :: rest) =
        .error "Buffer too small for packed text") ∧
    (∀ (seq cc : Nat) (packed : List Nat), (∀ b ∈ packed, b < 256) → 1 ≤ cc →
      packed.length < (6 * cc + 7) / 8 → (cc ≤ 65 ∨ packed.length < 49) →
      Message.deserialize (1 :: seq :: cc :: packed.length :: packed) =
        .error "Insufficient packed data") ∧
    (∀ buf : List Nat, (∃ m, Message.deserialize buf = .ok m) ∨
      ∃ e, Message.deserialize buf = .error e) := by
  refine ⟨rfl, ?_, ?_, ?_, ?_, ?_⟩
  · intro b0 rest h1 h2 h3
    simp only [Message.deserialize, List.isEmpty_cons, Bool.false_eq_true, if_false,
      List.getD_cons_zero]
    rw [if_neg h1, if_neg h2, if_neg h3]
  · intro rest hlen
    simp only [Message.deserialize, List.isEmpty_cons, Bool.false_eq_true, if_false,
      List.getD_cons_zero, List.length_cons, if_pos rfl, if_true]
    rw [if_pos (by omega)]
  · intro seq cc pl rest hlen
    simp only [Message.deserialize, List.isEmpty_cons, Bool.false_eq_true, if_false,
      List.getD_cons_zero, List.getD_cons_succ, List.length_cons, if_pos rfl, if_true]
    rw [if_neg (by omega), if_pos (by omega)]
  · intro seq cc packed hb hcc hpast hcap
    rw [deserialize_text_shaped]
    have h := unpackLoop_insuff packed hb cc 0 [] hcc (by simp)
      (by simp only [List.length_nil]; omega)
    have h0 : unpack_text packed cc = .error "Insufficient packed data" := by
      unfold unpack_text
      simpa using h
    rw [h0]
  · intro buf
    cases h : Message.deserialize buf with
    | ok m => exact .inl ⟨m, rfl⟩
    | error e => exact .inr ⟨e, rfl⟩

/-- C5 witness: a Text buffer declaring 3 characters over 2 packed bytes
fails with the insufficient-data error. -/
theorem decode_malformed_witness :
    Message.deserialize [1, 0, 3, 2, 0, 0] = .error "Insufficient packed data" :=
  decode_malformed.2.2.2.2.1 0 3 [0, 0] (by decide) (by norm_num) (by norm_num)
    (by norm_num)

/-! ### Claim C9 -/

/-- C9: Decode does not enforce the 50-character limit: the well-formed
buffer `[1, 0, 51, 39]` plus 39 zero bytes decodes to a 51-character Text
(51 spaces) that Encode itself rejects as too long; in general any
declared `char_count` up to the 64-character string capacity decodes
successfully given sufficient packed bytes, and only a `char_count` above
64 (with sufficient packed bytes) makes Decode fail. -/
theorem decode_no_length_limit :
    (Message.deserialize ([1, 0, 51, 39] ++ List.replicate 39 0) =
        .ok (.Text ⟨0, List.replicate 51 32⟩) ∧
      Message.serialize (.Text ⟨0, List.replicate 51 32⟩) 64 = .error "Text too long") ∧
    (∀ (seq cc : Nat) (packed : List Nat), (∀ b ∈ packed, b < 256) → cc ≤ 64 →
      (6 * cc + 7) / 8 ≤ packed.length →
      ∃ t, Message.deserialize (1 :: seq :: cc :: packed.length :: packed) =
        .ok (.Text ⟨seq, t⟩) ∧ t.length = cc) ∧
    (∀ (seq cc : Nat) (packed : List Nat), (∀ b ∈ packed, b < 256) → 64 < cc →
      49 ≤ packed.length →
      Message.deserialize (1 :: seq :: cc :: packed.length :: packed) =
        .error "String capacity exceeded") := by
  refine ⟨⟨by rfl, by rfl⟩, ?_, ?_⟩
  · intro seq cc packed hb hcc hlen
    obtain ⟨t, ht, htlen, _⟩ := unpackLoop_chars packed hb cc 0 []
      (by simp only [Nat.zero_add]; omega) (by simp only [List.length_nil]; omega)
    have h0 : unpack_text packed cc = .ok t := by
      unfold unpack_text
      simpa using ht
    refine ⟨t, ?_, by simpa using htlen⟩
    rw [deserialize_text_shaped, h0]
  · intro seq cc packed hb hcc hlen
    have h := unpackLoop_cap packed hb cc 0 [] (by simp only [List.length_nil]; omega)
      (by simp) (by simp only [List.length_nil]; omega)
    have h0 : unpack_text packed cc = .error "String capacity exceeded" := by
      unfold unpack_text
      simpa using h
    rw [deserialize_text_shaped, h0]

/-- C9 witness: a declared count of 60 characters over 45 packed bytes
decodes successfully to a 60-character text. -/
theorem decode_no_length_limit_witness :
    ∃ t, Message.deserialize
        (1 :: 0 :: 60 :: (List.replicate 45 (0:Nat)).length :: List.replicate 45 0) =
      .ok (.Text ⟨0, t⟩) ∧ t.length = 60 :=
  decode_no_length_limit.2.1 0 60 (List.replicate 45 0) (by decide) (by norm_num)
    (by simp)

/-! ### Claim C10 -/

/-- C10: on byte buffers (entries < 256) every 6-bit value extracted during
unpacking is below 64, so `unpack_text` can never return the
invalid-value error of `sixbit_to_char`; consequently every Text message
returned by Decode contains only characters of the 64-symbol
(uppercase-canonical) alphabet. -/
theorem decode_alphabet_closure :
    (∀ (packed : List Nat) (count : Nat), (∀ b ∈ packed, b < 256) →
      unpack_text packed count ≠ .error "Invalid 5-bit value") ∧
    (∀ buf : List Nat, (∀ b ∈ buf, b < 256) → ∀ (seq : Nat) (text : List Nat),
      Message.deserialize buf = .ok (.Text ⟨seq, text⟩) → ∀ c ∈ text, c ∈ CHARSET) := by
  constructor
  · intro packed count hb hcontra
    have h : unpackLoop packed count (6 * 0) [] = .error "Invalid 5-bit value" := by
      simpa [unpack_text] using hcontra
    rcases unpackLoop_err_shape packed hb count 0 [] _ h with he | he <;> simp at he
  · intro buf hb seq text hdes c hc
    simp only [Message.deserialize] at hdes
    by_cases he : buf.isEmpty = true
    · rw [if_pos he] at hdes
      exact absurd hdes (by simp)
    · rw [if_neg he] at hdes
      by_cases h1 : buf.getD 0 0 = 1
      · rw [if_pos h1] at hdes
        by_cases h4 : buf.length < 4
        · rw [if_pos h4] at hdes
          exact absurd hdes (by simp)
        · rw [if_neg h4] at hdes
          by_cases hpl : buf.length < 4 + buf.getD 3 0
          · rw [if_pos hpl] at hdes
            exact absurd hdes (by simp)
          · rw [if_neg hpl] at hdes
            have hregion : ∀ b ∈ (buf.drop 4).take (buf.getD 3 0), b < 256 :=
              fun b hbm => hb b (List.mem_of_mem_drop (List.mem_of_mem_take hbm))
            cases hu : unpack_text ((buf.drop 4).take (buf.getD 3 0)) (buf.getD 2 0) with
            | error e =>
              rw [hu] at hdes
              exact absurd hdes (by simp)
            | ok t =>
              rw [hu] at hdes
              simp only [Except.ok.injEq, Message.Text.injEq, TextMessage.mk.injEq] at hdes
              have hmem := unpackLoop_mem _ hregion (buf.getD 2 0) 0 [] t
                (by simpa [unpack_text] using hu) (by simp)
              rw [← hdes.2] at hc
              exact hmem c hc
      · rw [if_neg h1] at hdes
        by_cases h2 : buf.getD 0 0 = 2
        · rw [if_pos h2] at hdes
          by_cases h10 : buf.length < 10
          · rw [if_pos h10] at hdes
            exact absurd hdes (by simp)
          · rw [if_neg h10] at hdes
            exact absurd hdes (by simp)
        · rw [if_neg h2] at hdes
          by_cases h3 : buf.getD 0 0 = 3
          · rw [if_pos h3] at hdes
            by_cases h2l : buf.length < 2
            · rw [if_pos h2l] at hdes
              exact absurd hdes (by simp)
            · rw [if_neg h2l] at hdes
              exact absurd hdes (by simp)
          · rw [if_neg h3] at hdes
            exact absurd hdes (by simp)

/-- C10 witness: instantiated at the byte buffer `[255]` (one character
declared, all bits set) and at the concrete decode of an all-ones packed
region. -/
theorem decode_alphabet_closure_witness :
    unpack_text [255] 1 ≠ .error "Invalid 5-bit value" ∧
    (∀ c ∈ [32], c ∈ CHARSET) :=
  ⟨decode_alphabet_closure.1 [255] 1 (by decide),
   fun c hc => decode_alphabet_closure.2 [1, 0, 1, 1, 0] (by decide) 0 [32] (by rfl) c hc⟩

/-! ### Claim C2 -/

/-- C2: whenever a received frame decodes to a Text or Gps message with
sequence number `s`, the long-range bridge task transmits the serialized
`Ack` frame `[0x03, s]` and then attempts a non-blocking enqueue of the
decoded message onto the inbound-to-short-range channel (capacity 10),
dropping it when the channel is full; a frame decoding to an Ack is
enqueued under the same drop-on-full policy with no radio reply. -/
theorem lora_rx_forwarding (data : List Nat) (chan : List Message) :
    (∀ t : TextMessage, Message.deserialize data = .ok (.Text t) →
      handleRxFrame data chan =
        ([[3, t.seq]], if chan.length < 10 then chan ++ [.Text t] else chan)) ∧
    (∀ g : GpsMessage, Message.deserialize data = .ok (.Gps g) →
      handleRxFrame data chan =
        ([[3, g.seq]], if chan.length < 10 then chan ++ [.Gps g] else chan)) ∧
    (∀ a : AckMessage, Message.deserialize data = .ok (.Ack a) →
      handleRxFrame data chan =
        ([], if chan.length < 10 then chan ++ [.Ack a] else chan)) := by
  refine ⟨?_, ?_, ?_⟩
  · intro t h
    simp only [handleRxFrame, h, serialize_ack ⟨t.seq⟩ 64 (by norm_num), trySendState]
    by_cases hc : chan.length < 10 <;> simp [hc]
  · intro g h
    simp only [handleRxFrame, h, serialize_ack ⟨g.seq⟩ 64 (by norm_num), trySendState]
    by_cases hc : chan.length < 10 <;> simp [hc]
  · intro a h
    simp only [handleRxFrame, h, trySendState]
    by_cases hc : chan.length < 10 <;> simp [hc]

/-- C2 witness: a received Ack frame `[3, 7]` is forwarded to the channel
with no radio reply. -/
theorem lora_rx_forwarding_witness :
    handleRxFrame [3, 7] [] = ([], [Message.Ack ⟨7⟩]) := by
  have h := (lora_rx_forwarding [3, 7] []).2.2 ⟨7⟩ (by rfl)
  simpa using h

/-! ### Claim C6 -/

/-- C6: Encode of a Gps message produces exactly 10 bytes — tag 0x02,
`seq`, then `lat` and `lon` as little-endian two's-complement 32-bit
values — and Encode of an Ack produces exactly the 2 bytes
`[0x03, seq]`. -/
theorem gps_ack_frame_layout (g : GpsMessage) (a : AckMessage) (bufLen : Nat) :
    (10 ≤ bufLen → Message.serialize (.Gps g) bufLen =
      .ok [2, g.seq,
        (g.lat % 4294967296).toNat % 256, (g.lat % 4294967296).toNat / 256 % 256,
        (g.lat % 4294967296).toNat / 65536 % 256, (g.lat % 4294967296).toNat / 16777216 % 256,
        (g.lon % 4294967296).toNat % 256, (g.lon % 4294967296).toNat / 256 % 256,
        (g.lon % 4294967296).toNat / 65536 % 256, (g.lon % 4294967296).toNat / 16777216 % 256] ∧
      (∀ f, Message.serialize (.Gps g) bufLen = .ok f → f.length = 10)) ∧
    (2 ≤ bufLen → Message.serialize (.Ack a) bufLen = .ok [3, a.seq] ∧
      (∀ f, Message.serialize (.Ack a) bufLen = .ok f → f.length = 2)) := by
  constructor
  · intro h
    have hs := serialize_gps g bufLen h
    have hs2 : Message.serialize (.Gps g) bufLen =
        .ok [2, g.seq,
          (g.lat % 4294967296).toNat % 256, (g.lat % 4294967296).toNat / 256 % 256,
          (g.lat % 4294967296).toNat / 65536 % 256,
          (g.lat % 4294967296).toNat / 16777216 % 256,
          (g.lon % 4294967296).toNat % 256, (g.lon % 4294967296).toNat / 256 % 256,
          (g.lon % 4294967296).toNat / 65536 % 256,
          (g.lon % 4294967296).toNat / 16777216 % 256] := by
      rw [hs]
      simp only [i32ToLeBytes, List.cons_append, List.nil_append]
    refine ⟨hs2, ?_⟩
    intro f hf
    rw [hs2] at hf
    simp only [Except.ok.injEq] at hf
    subst hf
    rfl
  · intro h
    have hs := serialize_ack a bufLen h
    refine ⟨hs, ?_⟩
    intro f hf
    rw [hs] at hf
    simp only [Except.ok.injEq] at hf
    subst hf
    rfl

/-- C6 witness: the Gps and Ack layouts at `seq = 42`,
`lat = 37774200`, `lon = -122419200`. -/
theorem gps_ack_frame_layout_witness :
    Message.serialize (.Gps ⟨42, 37774200, -122419200⟩) 64 =
      .ok [2, 42, 120, 99, 64, 2, 0, 8, 180, 248] ∧
    Message.serialize (.Ack ⟨42⟩) 64 = .ok [3, 42] := by
  constructor
  · rw [((gps_ack_frame_layout ⟨42, 37774200, -122419200⟩ ⟨42⟩ 64).1 (by norm_num)).1]
    rfl
  · exact ((gps_ack_frame_layout ⟨42, 37774200, -122419200⟩ ⟨42⟩ 64).2 (by norm_num)).1

/-! ### Claim C7 -/

/-- C7: a bounded channel of capacity `cap` already holding `cap` messages
rejects a further non-blocking send, leaving its contents and order
unchanged (`(false, q)`), and a non-full channel accepts the message at
the tail (`(true, q ++ [m])`); `trySendState` is a total function, so a
full channel never blocks the producer. -/
theorem channel_try_send (cap : Nat) (q : List Message) (m : Message) :
    (q.length = cap → trySendState cap q m = (false, q)) ∧
    (q.length < cap → trySendState cap q m = (true, q ++ [m])) := by
  constructor
  · intro h
    unfold trySendState
    rw [if_neg (by omega)]
  · intro h
    unfold trySendState
    rw [if_pos h]

/-- C7 witness: a capacity-10 channel holding 10 messages rejects the
eleventh and is left unchanged. -/
theorem channel_try_send_witness :
    trySendState 10 (List.replicate 10 (Message.Ack ⟨0⟩)) (Message.Ack ⟨1⟩) =
      (false, List.replicate 10 (Message.Ack ⟨0⟩)) :=
  (channel_try_send 10 _ _).1 (by simp)

/-! ### Claim C8 -/

/-- C8: the transmit power resolved at startup is the configured value
exactly when it parses as an `i32` in `-4..=20` and 14 dBm in every other
case (unparseable, out of range, or absent); the carrier frequency is the
configured value exactly when it parses as a `u32` inside one of the ISM
sub-bands 433.05-434.79 MHz, 863-870 MHz, 902-928 MHz, and 433.92 MHz
otherwise.  Both resolvers are total functions: invalid configuration
never aborts startup. -/
theorem config_resolution (s : List Nat) :
    (∀ v : Int, parseI32 s = some v → -4 ≤ v → v ≤ 20 → resolvePower (some s) = v) ∧
    (∀ v : Int, parseI32 s = some v → (v < -4 ∨ 20 < v) → resolvePower (some s) = 14) ∧
    (parseI32 s = none → resolvePower (some s) = 14) ∧
    resolvePower none = 14 ∧
    (∀ v : Nat, parseU32 s = some v →
      ((433050000 ≤ v ∧ v ≤ 434790000) ∨ (863000000 ≤ v ∧ v ≤ 870000000) ∨
        (902000000 ≤ v ∧ v ≤ 928000000)) → resolveFrequency (some s) = v) ∧
    (∀ v : Nat, parseU32 s = some v →
      ¬((433050000 ≤ v ∧ v ≤ 434790000) ∨ (863000000 ≤ v ∧ v ≤ 870000000) ∨
        (902000000 ≤ v ∧ v ≤ 928000000)) → resolveFrequency (some s) = 433920000) ∧
    (parseU32 s = none → resolveFrequency (some s) = 433920000) ∧
    resolveFrequency none = 433920000 := by
  refine ⟨?_, ?_, ?_, rfl, ?_, ?_, ?_, rfl⟩
  · intro v h h1 h2
    simp only [resolvePower, h]
    rw [if_pos ⟨h1, h2⟩]
  · intro v h hout
    simp only [resolvePower, h]
    rw [if_neg (by omega)]
  · intro h
    simp only [resolvePower, h]
  · intro v h hband
    simp only [resolveFrequency, h]
    rw [if_pos hband]
  · intro v h hband
    simp only [resolveFrequency, h]
    rw [if_neg hband]
  · intro h
    simp only [resolveFrequency, h]

/-- C8 witness: the string "17" resolves to 17 dBm; the string "99"
parses but is out of band, so the frequency falls back to 433.92 MHz. -/
theorem config_resolution_witness :
    parseI32 [49, 55] = some 17 ∧ resolvePower (some [49, 55]) = 17 ∧
    parseU32 [57, 57] = some 99 ∧ resolveFrequency (some [57, 57]) = 433920000 :=
  ⟨by rfl, (config_resolution [49, 55]).1 17 (by rfl) (by norm_num) (by norm_num),
   by rfl, (config_resolution [57, 57]).2.2.2.2.2.1 99 (by rfl) (by norm_num)⟩

end LoraBridge
